import Mathlib

/-!
# Verification of the idividream status/recommendation engine and catalog validator

Shallow embedding of `journey.ts` (status engine + "next node" recommendation)
and `validate-nodes.ts` (dependency-cycle detection and spacing checks).

Modelling conventions:
* TypeScript objects become structures; optional fields (`?:`) become `Option`.
* JavaScript `Set`/`Map` become `List String` with membership / functions
  `String → Option _` updated pointwise (later `Map.set` wins).
* The engine in `journey.ts` reads its inputs (`getAllNodes`,
  `getCompletedNodeIds`, `getGlobalSettings`) from the local database; here
  they are explicit parameters, as the spec's purity section prescribes.
* JavaScript truthiness is preserved where it matters: `if (nextNodeId)` and
  `currentId ? … : null` are false for the empty string.
-/

/-- `NodeType` from types.ts: `"spiral" | "tree" | "hybrid"`. -/
inductive NodeType where
  | spiral
  | tree
  | hybrid
deriving DecidableEq, Repr

/-- `NodeStatus` from types.ts: `"locked" | "available" | "next" | "completed"`. -/
inductive NodeStatus where
  | locked
  | available
  | next
  | completed
deriving DecidableEq, Repr

/-- `SpiralPosition` from types.ts.  `theta`/`radius` are carried for shape
fidelity (the status engine reads only `order`; the geometric validator is
modelled separately over `ℝ`). -/
structure SpiralPosition where
  theta : ℚ
  radius : ℚ
  order : Int
deriving DecidableEq, Repr

/-- `UIPosition` from types.ts.  The status engine in journey.ts only ever
reads `ui_position.spiral`; the `tree` coordinates feed the geometric
validator, which is modelled separately over `ℝ`. -/
structure UIPosition where
  spiral : Option SpiralPosition
deriving DecidableEq, Repr

/-- `NodeDefinition` from types.ts, restricted to the fields the status
engine and recommendation selector read (`id`, `type`, `dependencies`,
`tags`, `ui_position`). -/
structure NodeDefinition where
  id : String
  type : NodeType
  dependencies : List String
  tags : List String
  ui_position : UIPosition
deriving DecidableEq, Repr

/-- `ComputedNodeStatus` from types.ts. -/
structure ComputedNodeStatus where
  nodeId : String
  status : NodeStatus
  unmetDependencies : Option (List String) := none
  recommendedReason : Option String := none
deriving DecidableEq, Repr

/-- The slice of `AppSettings` consumed by the recommendation selector
(journey.ts only reads `settings?.currentNodeId` and
`settings?.currentSpiralOrder`; an absent settings row is `⟨none, none⟩`). -/
structure AppSettings where
  currentNodeId : Option String := none
  currentSpiralOrder : Option Int := none
deriving DecidableEq, Repr

/-- journey.ts `depsMet`: filter the dependencies not in the completion set;
`ok` iff that list is empty. -/
def depsMet (node : NodeDefinition) (completed : List String) : Bool × List String :=
  let unmet := node.dependencies.filter (fun d => decide (d ∉ completed))
  (unmet.isEmpty, unmet)

/-- Body of the first `for` loop of `computeNodeStatuses` (journey.ts
lines 102–110): the status entry written for one node. -/
def firstPassEntry (completed : List String) (n : NodeDefinition) : ComputedNodeStatus :=
  if n.id ∈ completed then
    { nodeId := n.id, status := .completed }
  else
    let r := depsMet n completed
    if !r.1 then
      { nodeId := n.id, status := .locked, unmetDependencies := some r.2 }
    else
      { nodeId := n.id, status := .available }

/-- The first pass of `computeNodeStatuses`: the `statusMap` after the
completed/locked/available loop.  The JS `Map` is modelled as a function;
a later `statusMap.set` for the same id overwrites an earlier one. -/
def firstPass (nodes : List NodeDefinition) (completed : List String) :
    String → Option ComputedNodeStatus :=
  nodes.foldl
    (fun m n => fun i => if i = n.id then some (firstPassEntry completed n) else m i)
    (fun _ => none)

/-- The `order` of a node's spiral position (journey.ts accesses it as
`n.ui_position!.spiral!.order` after filtering on presence; the default 0
is never reached on filtered nodes). -/
def spiralOrderD (n : NodeDefinition) : Int :=
  ((n.ui_position.spiral).map (·.order)).getD 0

/-- JavaScript `x || y` on numbers, as used by the tag-overlap comparator:
`x` if it is non-zero, else `y`. -/
def jsOr (x y : Int) : Int :=
  if x = 0 then y else x

/-- Insert one element into a sorted prefix: `x` goes immediately before the
first element `y` with `cmp x y < 0`.  For a consistent comparator this is
the stable insertion position; on two-element arrays it performs exactly the
single comparison `cmp x y` that the engine's array sort performs. -/
def insertCmp (cmp : α → α → Int) (x : α) : List α → List α
  | [] => [x]
  | y :: ys => if cmp x y < 0 then x :: y :: ys else y :: insertCmp cmp x ys

/-- Left-to-right insertion sort driven by a JavaScript-style numeric
comparator.  `Array.prototype.sort` with a consistent comparator is a stable
sort, which this is; for the inconsistent tag-overlap comparator of
journey.ts (where the ECMAScript result is implementation-defined) this
model agrees with the single comparison V8 performs on two-element arrays. -/
def jsSortAux (cmp : α → α → Int) : List α → List α → List α
  | [], acc => acc
  | x :: xs, acc => jsSortAux cmp xs (insertCmp cmp x acc)

/-- `l.sort(cmp)` modelled as insertion sort (see `jsSortAux`). -/
def jsSort (cmp : α → α → Int) (l : List α) : List α :=
  jsSortAux cmp l []

/-- journey.ts line 132: the nodes whose computed status is `"available"`. -/
def availableOf (nodes : List NodeDefinition)
    (statusMap : String → Option ComputedNodeStatus) : List NodeDefinition :=
  nodes.filter (fun n => decide ((statusMap n.id).map (·.status) = some .available))

/-- journey.ts lines 138–140: available spiral-type nodes carrying a spiral
position, sorted ascending by order. -/
def spiralCandidates (nodes : List NodeDefinition)
    (statusMap : String → Option ComputedNodeStatus) : List NodeDefinition :=
  jsSort (fun a b => spiralOrderD a - spiralOrderD b)
    ((availableOf nodes statusMap).filter
      (fun n => decide (n.type = .spiral) && (n.ui_position.spiral).isSome))

/-- The scored record built in the tag-overlap fallback
(journey.ts lines 158–161). -/
structure Scored where
  id : String
  overlap : Int
  isSpiral : Bool
deriving DecidableEq, Repr

/-- Tag overlap: `(n.tags ?? []).reduce((acc, t) => acc + (currentTags.has(t) ? 1 : 0), 0)`. -/
def tagOverlap (currentTags : List String) (n : NodeDefinition) : Int :=
  ((n.tags.filter (fun t => decide (t ∈ currentTags))).length : Int)

/-- journey.ts lines 158–161: build the scored record for one available node. -/
def mkScored (currentTags : List String) (n : NodeDefinition) : Scored :=
  { id := n.id, overlap := tagOverlap currentTags n, isSpiral := n.type = .spiral }

/-- The tag-overlap comparator of journey.ts line 162:
`(b.overlap - a.overlap) || (b.isSpiral ? 1 : -1)`.
Note it inspects only `b.isSpiral` in the tie-break, never `a.isSpiral`,
so it is not a consistent comparator on equal-overlap pairs of equal type. -/
def scoredCmp (a b : Scored) : Int :=
  jsOr (b.overlap - a.overlap) (if b.isSpiral then 1 else -1)

/-- The spiral-continuation rule (journey.ts lines 137–149): among the sorted
available spiral candidates, resume at the first order at or after
`currentSpiralOrder`, else take the lowest order; `none` when no candidate
exists (fall through to the tag fallback). -/
def spiralChoice (nodes : List NodeDefinition)
    (statusMap : String → Option ComputedNodeStatus) (settings : AppSettings) :
    Option String :=
  let spirals := spiralCandidates nodes statusMap
  match settings.currentSpiralOrder with
  | some currentOrder =>
    match spirals.find? (fun n => decide (currentOrder ≤ spiralOrderD n)) with
    | some after => some after.id
    | none => spirals.head?.map (·.id)
  | none => spirals.head?.map (·.id)

/-- journey.ts lines 152–153: resolve `settings.currentNodeId` to a catalog
node.  `currentId ? nodes.find(…) : null` treats the empty string as unset
(JS truthiness). -/
def currentNode (nodes : List NodeDefinition) (settings : AppSettings) :
    Option NodeDefinition :=
  match settings.currentNodeId with
  | some cid => if cid = "" then none else nodes.find? (fun n => decide (n.id = cid))
  | none => none

/-- The tag-overlap fallback (journey.ts lines 151–164). -/
def fallbackChoice (nodes : List NodeDefinition)
    (statusMap : String → Option ComputedNodeStatus) (settings : AppSettings) :
    Option String :=
  let available := availableOf nodes statusMap
  match currentNode nodes settings with
  | none => available.head?.map (·.id)
  | some cnode =>
    let scored := jsSort scoredCmp (available.map (mkScored cnode.tags))
    match scored.head? with
    | some s => some s.id
    | none => available.head?.map (·.id)

/-- `computeRecommendedNextNodeId` (journey.ts lines 124–165). -/
def computeRecommendedNextNodeId (nodes : List NodeDefinition)
    (statusMap : String → Option ComputedNodeStatus)
    (settings : AppSettings) (preferNextBySpiral : Bool) : Option String :=
  let available := availableOf nodes statusMap
  if available.isEmpty then none
  else
    match (if preferNextBySpiral then spiralChoice nodes statusMap settings else none) with
    | some i => some i
    | none => fallbackChoice nodes statusMap settings

/-- `computeNodeStatuses` (journey.ts lines 90–122), with the database reads
made explicit parameters.  The promotion guard `if (nextNodeId)` is false in
JavaScript for the empty string, and the promotion is skipped unless the
selected entry's status is `"available"`. -/
def computeNodeStatuses (nodes : List NodeDefinition) (completed : List String)
    (settings : AppSettings) (preferNextBySpiral : Bool) :
    String → Option ComputedNodeStatus :=
  let statusMap := firstPass nodes completed
  match computeRecommendedNextNodeId nodes statusMap settings preferNextBySpiral with
  | some nextNodeId =>
    if nextNodeId = "" then statusMap
    else
      match statusMap nextNodeId with
      | some entry =>
        if entry.status = .available then
          fun i =>
            if i = nextNodeId then
              some { entry with status := .next, recommendedReason := some "recommended_next" }
            else statusMap i
        else statusMap
      | none => statusMap
  | none => statusMap

/-! ## validate-nodes.ts: cycle detection

`detectCycles` (validate-nodes.ts lines 32–55) performs a recursive DFS with
a gray set (`visiting`) and a black set (`visited`); `fail` terminates the
process.  It is modelled as a function into
`Option (Except ValidationError DfsState)`: `some (.error e)` is a `fail`
call, `some (.ok _)` is successful completion, and `none` is exhausted fuel
(the fuel supplied by `detectCycles` is proven sufficient, see
`detectCycles_ne_none`). -/

/-- The two `fail` messages reachable from `detectCycles`. -/
inductive ValidationError where
  | cycle (path : List String)
  | missingDep (node dep : String)
deriving DecidableEq, Repr

/-- DFS bookkeeping: `visiting` is the gray set (always the reverse of the
current `stack`), `visited` the black set, kept as a list consed in finish
order. -/
structure DfsState where
  visiting : List String
  visited : List String
deriving DecidableEq, Repr

/-- The `for (const d of deps)` loop of `dfs` (validate-nodes.ts lines
46–49): each dependency must exist in `ids`, then is recursively visited. -/
def processDeps (ids : List String)
    (rec : String → DfsState → Option (Except ValidationError DfsState))
    (x : String) : List String → DfsState → Option (Except ValidationError DfsState)
  | [], st => some (.ok st)
  | d :: ds, st =>
    if ids.contains d then
      match rec d st with
      | some (.ok st') => processDeps ids rec x ds st'
      | some (.error e) => some (.error e)
      | none => none
    else some (.error (.missingDep x d))

/-- `dfs` of validate-nodes.ts (lines 36–52).  On a gray hit the reported
cycle is `stack.slice(stack.indexOf(id)).concat(id)`; on completion the
node is moved from `visiting` to `visited`.  `fuel` bounds the recursion
depth (the source relies on the call stack; the depth is bounded by the
number of ids, see `dfs_ne_none`). -/
def dfs (ids : List String) (deps : String → List String) :
    Nat → String → List String → DfsState → Option (Except ValidationError DfsState)
  | 0, _, _, _ => none
  | fuel + 1, x, stack, st =>
    if st.visiting.contains x then
      some (.error (.cycle (stack.drop (stack.indexOf x) ++ [x])))
    else if st.visited.contains x then
      some (.ok st)
    else
      match processDeps ids (fun d st' => dfs ids deps fuel d (stack ++ [x]) st') x (deps x)
          { st with visiting := x :: st.visiting } with
      | some (.ok st2) =>
        some (.ok { visiting := st2.visiting.erase x, visited := x :: st2.visited })
      | r => r

/-- The top-level `for (const id of ids) dfs(id, [])` loop
(validate-nodes.ts line 54). -/
def detectCyclesGo (ids : List String) (deps : String → List String) :
    List String → DfsState → Option (Except ValidationError DfsState)
  | [], st => some (.ok st)
  | i :: is, st =>
    match dfs ids deps (ids.length + 1) i [] st with
    | some (.ok st') => detectCyclesGo ids deps is st'
    | some (.error e) => some (.error e)
    | none => none

/-- `detectCycles(ids, depsMap)` of validate-nodes.ts: the `Set` of ids is a
list (iterated in insertion order), the `Map` with `depsMap.get(id) ?? []` a
total function. -/
def detectCycles (ids : List String) (deps : String → List String) :
    Option (Except ValidationError DfsState) :=
  detectCyclesGo ids deps ids ⟨[], []⟩

/-- `visited` lists that are closed under dependencies in finish order:
every node's dependencies occur strictly later in the list (they were
blackened earlier).  Successful termination of `detectCycles` produces such
a list, which is what makes the dependency graph acyclic. -/
def DepClosed (deps : String → List String) : List String → Prop
  | [] => True
  | v :: rest => (∀ d ∈ deps v, d ∈ rest) ∧ DepClosed deps rest

/-- The state invariant maintained by the DFS: the black list has no
duplicates, is dependency-closed, and is disjoint from the gray set. -/
def DfsInv (deps : String → List String) (st : DfsState) : Prop :=
  st.visited.Nodup ∧ DepClosed deps st.visited ∧ ∀ i ∈ st.visiting, i ∉ st.visited

/-! ## validate-nodes.ts: spacing checks

The geometric checks (lines 57–61, 110–137) use IEEE doubles; they are
idealised over `ℝ`.  Since `Real.sqrt`, `Real.cos`, `Real.sin` carry no
executable code, the per-pair checks are modelled directly as `Prop`s. -/

/-- One iteration of the tree spacing loop (validate-nodes.ts lines
116–124): `distance(a, b) < TREE_MIN_DIST` with
`distance = Math.sqrt(dx*dx + dy*dy)` and `TREE_MIN_DIST = 8`. -/
def treeTooClose (a b : ℝ × ℝ) : Prop :=
  Real.sqrt ((a.1 - b.1) * (a.1 - b.1) + (a.2 - b.2) * (a.2 - b.2)) < 8

/-- One iteration of the spiral spacing loop (validate-nodes.ts lines
126–137): the polar positions `(theta, radius)` are sent through
`polarToXY` (`x = radius·cos θ`, `y = radius·sin θ`) and compared against
`SPIRAL_MIN_DIST = 12`. -/
def spiralTooClose (a b : ℝ × ℝ) : Prop :=
  Real.sqrt
    ((a.2 * Real.cos a.1 - b.2 * Real.cos b.1) * (a.2 * Real.cos a.1 - b.2 * Real.cos b.1) +
      (a.2 * Real.sin a.1 - b.2 * Real.sin b.1) * (a.2 * Real.sin a.1 - b.2 * Real.sin b.1)) < 12

/-- The tree spacing double loop emits a warning for the index pair
`(i, j)` with `i < j` exactly when the two tree positions are too close. -/
def treeWarningAt (pts : List (ℝ × ℝ)) (i j : Nat) : Prop :=
  i < j ∧ j < pts.length ∧ treeTooClose (pts.getD i (0, 0)) (pts.getD j (0, 0))

/-- The spiral spacing double loop, likewise over polar positions. -/
def spiralWarningAt (pts : List (ℝ × ℝ)) (i j : Nat) : Prop :=
  i < j ∧ j < pts.length ∧ spiralTooClose (pts.getD i (0, 0)) (pts.getD j (0, 0))

/-! ## Generic list lemmas -/

theorem find?_eq_some_of_unique {α : Type} {p : α → Bool} {l : List α} {a : α}
    (ha : a ∈ l) (hpa : p a = true) (huniq : ∀ b ∈ l, p b = true → b = a) :
    l.find? p = some a := by
  induction l with
  | nil => cases ha
  | cons b t ih =>
    by_cases hpb : p b = true
    · have hba : b = a := huniq b (by simp) hpb
      subst hba
      simp [List.find?, hpb]
    · have hab : a ≠ b := fun h => hpb (h ▸ hpa)
      have ha' : a ∈ t := by
        rcases List.mem_cons.mp ha with h | h
        · exact absurd h hab
        · exact h
      simp only [List.find?]
      rw [Bool.of_not_eq_true hpb]
      exact ih ha' (fun c hc hpc => huniq c (List.mem_cons_of_mem _ hc) hpc)

theorem insertCmp_perm {α : Type} (cmp : α → α → Int) (x : α) (l : List α) :
    (insertCmp cmp x l).Perm (x :: l) := by
  induction l with
  | nil => simp [insertCmp]
  | cons y ys ih =>
    by_cases h : cmp x y < 0
    · simp [insertCmp, h]
    · simp only [insertCmp, if_neg h]
      exact (ih.cons y).trans (List.Perm.swap x y ys)

theorem jsSortAux_perm {α : Type} (cmp : α → α → Int) (l : List α) :
    ∀ acc, (jsSortAux cmp l acc).Perm (l ++ acc) := by
  induction l with
  | nil => intro acc; simp [jsSortAux]
  | cons x xs ih =>
    intro acc
    simp only [jsSortAux]
    exact ((ih _).trans ((insertCmp_perm cmp x acc).append_left xs)).trans
      List.perm_middle

theorem jsSort_perm {α : Type} (cmp : α → α → Int) (l : List α) :
    (jsSort cmp l).Perm l := by
  simpa using jsSortAux_perm cmp l []

theorem mem_jsSort {α : Type} {cmp : α → α → Int} {l : List α} {a : α} :
    a ∈ jsSort cmp l ↔ a ∈ l :=
  (jsSort_perm cmp l).mem_iff

/-! ## The first pass of `computeNodeStatuses` -/

theorem firstPass_lookup (completed : List String) (i : String) :
    ∀ (nodes : List NodeDefinition),
      firstPass nodes completed i =
        (nodes.reverse.find? (fun n => decide (n.id = i))).map (firstPassEntry completed) := by
  have general : ∀ (nodes : List NodeDefinition) (m : String → Option ComputedNodeStatus),
      (nodes.foldl
        (fun m n => fun j => if j = n.id then some (firstPassEntry completed n) else m j) m) i
      = match nodes.reverse.find? (fun n => decide (n.id = i)) with
        | some n => some (firstPassEntry completed n)
        | none => m i := by
    intro nodes
    induction nodes with
    | nil => intro m; simp
    | cons n ns ih =>
      intro m
      simp only [List.foldl_cons, List.reverse_cons]
      rw [ih, List.find?_append]
      cases h : ns.reverse.find? (fun n => decide (n.id = i)) with
      | some k => simp [Option.or]
      | none =>
        simp only [Option.or]
        by_cases hi : n.id = i
        · simp [List.find?, hi]
        · have : ¬ i = n.id := fun h' => hi h'.symm
          simp [List.find?, hi, this]
  intro nodes
  rw [firstPass, general]
  cases h : nodes.reverse.find? (fun n => decide (n.id = i)) <;> simp

theorem firstPass_lookup_self {nodes : List NodeDefinition} {n : NodeDefinition}
    (hnd : (nodes.map (·.id)).Nodup) (hn : n ∈ nodes) (completed : List String) :
    firstPass nodes completed n.id = some (firstPassEntry completed n) := by
  rw [firstPass_lookup]
  have inj := List.inj_on_of_nodup_map hnd
  have : nodes.reverse.find? (fun m => decide (m.id = n.id)) = some n := by
    apply find?_eq_some_of_unique (List.mem_reverse.mpr hn) (by simp)
    intro b hb hpb
    exact inj (List.mem_reverse.mp hb) hn (by simpa using hpb)
  rw [this, Option.map_some']

theorem firstPassEntry_nodeId (completed : List String) (n : NodeDefinition) :
    (firstPassEntry completed n).nodeId = n.id := by
  unfold firstPassEntry
  split
  · rfl
  · dsimp only
    split <;> rfl

theorem firstPassEntry_status_ne_next (completed : List String) (n : NodeDefinition) :
    (firstPassEntry completed n).status ≠ .next := by
  unfold firstPassEntry
  split
  · simp
  · dsimp only
    split <;> simp

theorem firstPass_status_ne_next {nodes : List NodeDefinition} {completed : List String}
    {i : String} {e : ComputedNodeStatus}
    (h : firstPass nodes completed i = some e) : e.status ≠ .next := by
  rw [firstPass_lookup] at h
  cases hf : nodes.reverse.find? (fun n => decide (n.id = i)) with
  | none => rw [hf] at h; cases h
  | some n =>
    rw [hf, Option.map_some'] at h
    cases h
    exact firstPassEntry_status_ne_next completed n

theorem firstPassEntry_available_iff (completed : List String) (n : NodeDefinition) :
    (firstPassEntry completed n).status = .available ↔
      n.id ∉ completed ∧ n.dependencies.filter (fun d => decide (d ∉ completed)) = [] := by
  unfold firstPassEntry depsMet
  by_cases hc : n.id ∈ completed
  · simp [hc]
  · rw [if_neg hc]
    dsimp only
    by_cases hu : n.dependencies.filter (fun d => decide (d ∉ completed)) = []
    · rw [hu]
      simp [hc]
    · have hex : ∃ x ∈ n.dependencies, x ∉ completed := by
        rcases List.exists_mem_of_ne_nil _ hu with ⟨d, hd⟩
        rcases List.mem_filter.mp hd with ⟨hd1, hd2⟩
        exact ⟨d, hd1, by simpa using hd2⟩
      rw [if_pos]
      · simp [hc, hu, hex]
      · simp [List.isEmpty_iff, hu, hex]

theorem firstPassEntry_of_completed {completed : List String} {n : NodeDefinition}
    (h : n.id ∈ completed) :
    firstPassEntry completed n = { nodeId := n.id, status := .completed } := by
  simp [firstPassEntry, h]

theorem firstPassEntry_of_locked {completed : List String} {n : NodeDefinition}
    (hc : n.id ∉ completed)
    (hu : n.dependencies.filter (fun d => decide (d ∉ completed)) ≠ []) :
    firstPassEntry completed n =
      { nodeId := n.id, status := .locked,
        unmetDependencies := some (n.dependencies.filter (fun d => decide (d ∉ completed))) } := by
  unfold firstPassEntry depsMet
  rw [if_neg hc]
  dsimp only
  have hex : ∃ x ∈ n.dependencies, x ∉ completed := by
    rcases List.exists_mem_of_ne_nil _ hu with ⟨d, hd⟩
    rcases List.mem_filter.mp hd with ⟨hd1, hd2⟩
    exact ⟨d, hd1, by simpa using hd2⟩
  rw [if_pos]
  simp [List.isEmpty_iff, hu, hex]

theorem firstPassEntry_of_available {completed : List String} {n : NodeDefinition}
    (hc : n.id ∉ completed)
    (hu : n.dependencies.filter (fun d => decide (d ∉ completed)) = []) :
    firstPassEntry completed n = { nodeId := n.id, status := .available } := by
  unfold firstPassEntry depsMet
  rw [if_neg hc]
  dsimp only
  rw [hu]
  simp

theorem firstPass_nodeId {nodes : List NodeDefinition} {completed : List String}
    {i : String} {e : ComputedNodeStatus}
    (h : firstPass nodes completed i = some e) : e.nodeId = i := by
  rw [firstPass_lookup] at h
  cases hf : nodes.reverse.find? (fun n => decide (n.id = i)) with
  | none => rw [hf] at h; cases h
  | some n =>
    rw [hf, Option.map_some'] at h
    have hid : n.id = i := by simpa using List.find?_some hf
    cases h
    rw [firstPassEntry_nodeId, hid]

/-- The second pass of `computeNodeStatuses` is a frame update of the first:
either nothing changes, or exactly the recommended id's entry is promoted
from `available` to `next`. -/
theorem statuses_frame (nodes : List NodeDefinition) (completed : List String)
    (settings : AppSettings) (flag : Bool) :
    (∀ i, computeNodeStatuses nodes completed settings flag i = firstPass nodes completed i) ∨
    (∃ j e, firstPass nodes completed j = some e ∧ e.status = .available ∧
      computeNodeStatuses nodes completed settings flag j =
        some { e with status := .next, recommendedReason := some "recommended_next" } ∧
      (∀ i, i ≠ j → computeNodeStatuses nodes completed settings flag i =
        firstPass nodes completed i) ∧
      computeRecommendedNextNodeId nodes (firstPass nodes completed) settings flag = some j) := by
  simp only [computeNodeStatuses]
  cases hr : computeRecommendedNextNodeId nodes (firstPass nodes completed) settings flag with
  | none => exact Or.inl fun i => rfl
  | some nid =>
    dsimp only
    by_cases h0 : nid = ""
    · rw [if_pos h0]
      exact Or.inl fun i => rfl
    · rw [if_neg h0]
      cases he : firstPass nodes completed nid with
      | none => exact Or.inl fun i => rfl
      | some e =>
        dsimp only
        by_cases hs : e.status = NodeStatus.available
        · rw [if_pos hs]
          refine Or.inr ⟨nid, e, he, hs, ?_, ?_, rfl⟩
          · simp
          · intro i hij
            simp [hij]
        · rw [if_neg hs]
          exact Or.inl fun i => rfl

/-- C10: the `next` promotion in `computeNodeStatuses` is a pure frame
update — at most the selected node's map entry differs from the first-pass
result, its status changing from `available` to `next` with a
`recommendedReason` added and its `nodeId` preserved; every other entry is
exactly its first-pass value. -/
theorem C10_next_promotion_frame (nodes : List NodeDefinition) (completed : List String)
    (settings : AppSettings) (flag : Bool) :
    (∀ i, computeNodeStatuses nodes completed settings flag i = firstPass nodes completed i) ∨
    (∃ j e, firstPass nodes completed j = some e ∧ e.status = .available ∧ e.nodeId = j ∧
      computeNodeStatuses nodes completed settings flag j =
        some { nodeId := e.nodeId, status := .next,
               unmetDependencies := e.unmetDependencies,
               recommendedReason := some "recommended_next" } ∧
      ∀ i, i ≠ j → computeNodeStatuses nodes completed settings flag i =
        firstPass nodes completed i) := by
  rcases statuses_frame nodes completed settings flag with h | ⟨j, e, he, hs, hj, hoth, _⟩
  · exact Or.inl h
  · exact Or.inr ⟨j, e, he, hs, firstPass_nodeId he, hj, hoth⟩

/-- C1: the first pass assigns every catalog node exactly one status:
`completed` when its id is in the completion set; otherwise `locked`
carrying exactly the dependency ids missing from the completion set when
any exist; otherwise `available` — in particular a non-completed node with
no dependencies is `available`. -/
theorem C1_first_pass_statuses (nodes : List NodeDefinition) (completed : List String)
    (hnd : (nodes.map (·.id)).Nodup) :
    ∀ n ∈ nodes, ∃ e, firstPass nodes completed n.id = some e ∧
      (n.id ∈ completed → e = { nodeId := n.id, status := .completed }) ∧
      (n.id ∉ completed →
        n.dependencies.filter (fun d => decide (d ∉ completed)) ≠ [] →
        e = { nodeId := n.id, status := .locked,
              unmetDependencies :=
                some (n.dependencies.filter (fun d => decide (d ∉ completed))) }) ∧
      (n.id ∉ completed →
        n.dependencies.filter (fun d => decide (d ∉ completed)) = [] →
        e = { nodeId := n.id, status := .available }) ∧
      (n.id ∉ completed → n.dependencies = [] → e.status = .available) := by
  intro n hn
  refine ⟨firstPassEntry completed n, firstPass_lookup_self hnd hn completed, ?_, ?_, ?_, ?_⟩
  · exact fun h => firstPassEntry_of_completed h
  · exact fun hc hu => firstPassEntry_of_locked hc hu
  · exact fun hc hu => firstPassEntry_of_available hc hu
  · intro hc hdep
    rw [firstPassEntry_of_available hc (by simp [hdep])]

/-- Witness for C1 at a concrete two-node catalog: `s1` is completed and
`s2` (depending on `s1`) is available. -/
theorem C1_first_pass_statuses_witness :
    ∃ e, firstPass
        [⟨"s1", .spiral, [], ["a"], ⟨some ⟨0, 0, 1⟩⟩⟩,
         ⟨"s2", .spiral, ["s1"], ["a"], ⟨some ⟨0, 0, 2⟩⟩⟩] ["s1"]
        (NodeDefinition.id ⟨"s2", .spiral, ["s1"], ["a"], ⟨some ⟨0, 0, 2⟩⟩⟩) = some e ∧
      ("s2" ∈ ["s1"] → e = { nodeId := "s2", status := .completed }) ∧
      ("s2" ∉ ["s1"] →
        (["s1"].filter (fun d => decide (d ∉ ["s1"])) ≠ []) →
        e = { nodeId := "s2", status := .locked,
              unmetDependencies := some (["s1"].filter (fun d => decide (d ∉ ["s1"]))) }) ∧
      ("s2" ∉ ["s1"] →
        (["s1"].filter (fun d => decide (d ∉ ["s1"])) = []) →
        e = { nodeId := "s2", status := .available }) ∧
      ("s2" ∉ ["s1"] → (["s1"] : List String) = [] → e.status = .available) :=
  C1_first_pass_statuses
    [⟨"s1", .spiral, [], ["a"], ⟨some ⟨0, 0, 1⟩⟩⟩,
     ⟨"s2", .spiral, ["s1"], ["a"], ⟨some ⟨0, 0, 2⟩⟩⟩] ["s1"] (by decide)
    ⟨"s2", .spiral, ["s1"], ["a"], ⟨some ⟨0, 0, 2⟩⟩⟩ (by decide)

/-! ## The recommendation selector -/

theorem mem_availableOf {nodes : List NodeDefinition}
    {m : String → Option ComputedNodeStatus} {n : NodeDefinition} :
    n ∈ availableOf nodes m ↔
      n ∈ nodes ∧ (m n.id).map (·.status) = some .available := by
  simp [availableOf]

theorem mem_spiralCandidates {nodes : List NodeDefinition}
    {m : String → Option ComputedNodeStatus} {n : NodeDefinition} :
    n ∈ spiralCandidates nodes m ↔
      n ∈ availableOf nodes m ∧ n.type = .spiral ∧ (n.ui_position.spiral).isSome := by
  unfold spiralCandidates
  rw [mem_jsSort, List.mem_filter]
  simp

theorem availableOf_eq_nil_iff {nodes : List NodeDefinition}
    {m : String → Option ComputedNodeStatus} :
    availableOf nodes m = [] ↔
      ∀ n ∈ nodes, (m n.id).map (·.status) ≠ some .available := by
  unfold availableOf
  rw [List.filter_eq_nil_iff]
  simp

theorem spiralChoice_mem {nodes : List NodeDefinition}
    {m : String → Option ComputedNodeStatus} {s : AppSettings} {i : String}
    (h : spiralChoice nodes m s = some i) :
    ∃ n ∈ spiralCandidates nodes m, n.id = i := by
  unfold spiralChoice at h
  cases hcur : s.currentSpiralOrder with
  | none =>
    rw [hcur] at h
    dsimp only at h
    rcases Option.map_eq_some'.mp h with ⟨a, ha, hai⟩
    exact ⟨a, List.mem_of_mem_head? (ha ▸ rfl), hai⟩
  | some cur =>
    rw [hcur] at h
    dsimp only at h
    cases hf : (spiralCandidates nodes m).find? (fun n => decide (cur ≤ spiralOrderD n)) with
    | some after =>
      rw [hf] at h
      cases h
      exact ⟨after, List.mem_of_find?_eq_some hf, rfl⟩
    | none =>
      rw [hf] at h
      dsimp only at h
      rcases Option.map_eq_some'.mp h with ⟨a, ha, hai⟩
      exact ⟨a, List.mem_of_mem_head? (ha ▸ rfl), hai⟩

theorem spiralChoice_of_no_candidates {nodes : List NodeDefinition}
    {m : String → Option ComputedNodeStatus} {s : AppSettings}
    (h : spiralCandidates nodes m = []) : spiralChoice nodes m s = none := by
  unfold spiralChoice
  rw [h]
  cases s.currentSpiralOrder <;> simp

theorem fallbackChoice_mem {nodes : List NodeDefinition}
    {m : String → Option ComputedNodeStatus} {s : AppSettings} {i : String}
    (h : fallbackChoice nodes m s = some i) :
    ∃ n ∈ availableOf nodes m, n.id = i := by
  unfold fallbackChoice at h
  cases hc : currentNode nodes s with
  | none =>
    rw [hc] at h
    dsimp only at h
    rcases Option.map_eq_some'.mp h with ⟨a, ha, hai⟩
    exact ⟨a, List.mem_of_mem_head? (ha ▸ rfl), hai⟩
  | some cnode =>
    rw [hc] at h
    dsimp only at h
    cases hh : (jsSort scoredCmp ((availableOf nodes m).map (mkScored cnode.tags))).head? with
    | some sc =>
      rw [hh] at h
      cases h
      have hmem : sc ∈ (availableOf nodes m).map (mkScored cnode.tags) :=
        mem_jsSort.mp (List.mem_of_mem_head? (by rw [hh]; rfl))
      rcases List.mem_map.mp hmem with ⟨n, hn, hns⟩
      exact ⟨n, hn, by rw [← hns]; rfl⟩
    | none =>
      rw [hh] at h
      dsimp only at h
      rcases Option.map_eq_some'.mp h with ⟨a, ha, hai⟩
      exact ⟨a, List.mem_of_mem_head? (ha ▸ rfl), hai⟩

theorem fallbackChoice_isSome {nodes : List NodeDefinition}
    {m : String → Option ComputedNodeStatus} {s : AppSettings}
    (h : availableOf nodes m ≠ []) : (fallbackChoice nodes m s).isSome = true := by
  unfold fallbackChoice
  cases hc : currentNode nodes s with
  | none =>
    dsimp only
    cases hh : (availableOf nodes m).head? with
    | none => exact absurd (List.head?_eq_none_iff.mp hh) h
    | some a => simp
  | some cnode =>
    dsimp only
    cases hh : (jsSort scoredCmp ((availableOf nodes m).map (mkScored cnode.tags))).head? with
    | some sc => simp
    | none =>
      exfalso
      have hnil := List.head?_eq_none_iff.mp hh
      have hperm := jsSort_perm scoredCmp ((availableOf nodes m).map (mkScored cnode.tags))
      rw [hnil] at hperm
      have := hperm.symm.length_eq
      simp at this
      exact h this

theorem rec_none_iff {nodes : List NodeDefinition}
    {m : String → Option ComputedNodeStatus} {s : AppSettings} {flag : Bool} :
    computeRecommendedNextNodeId nodes m s flag = none ↔ availableOf nodes m = [] := by
  constructor
  · intro h
    by_contra hne
    unfold computeRecommendedNextNodeId at h
    rw [if_neg (by simpa [List.isEmpty_iff] using hne)] at h
    cases hsp : (if flag then spiralChoice nodes m s else none) with
    | some i => rw [hsp] at h; cases h
    | none =>
      rw [hsp] at h
      dsimp only at h
      have hfs : (fallbackChoice nodes m s).isSome = true := fallbackChoice_isSome hne
      rw [h] at hfs
      cases hfs
  · intro h
    unfold computeRecommendedNextNodeId
    rw [h]
    simp

theorem rec_isSome {nodes : List NodeDefinition}
    {m : String → Option ComputedNodeStatus} {s : AppSettings} {flag : Bool}
    (h : availableOf nodes m ≠ []) :
    (computeRecommendedNextNodeId nodes m s flag).isSome = true := by
  unfold computeRecommendedNextNodeId
  rw [if_neg (by simpa [List.isEmpty_iff] using h)]
  cases hsp : (if flag = true then spiralChoice nodes m s else none) with
  | some i => simp
  | none =>
    dsimp only
    exact fallbackChoice_isSome h

theorem rec_mem {nodes : List NodeDefinition}
    {m : String → Option ComputedNodeStatus} {s : AppSettings} {flag : Bool} {i : String}
    (h : computeRecommendedNextNodeId nodes m s flag = some i) :
    ∃ n ∈ availableOf nodes m, n.id = i := by
  unfold computeRecommendedNextNodeId at h
  by_cases he : (availableOf nodes m).isEmpty
  · rw [if_pos he] at h; cases h
  · rw [if_neg he] at h
    cases hsp : (if flag then spiralChoice nodes m s else none) with
    | some j =>
      rw [hsp] at h
      have hji : j = i := by injection h
      subst hji
      have hspc : spiralChoice nodes m s = some j := by
        by_cases hf : flag = true
        · rw [hf] at hsp; simpa using hsp
        · rw [Bool.of_not_eq_true hf] at hsp; cases hsp
      rcases spiralChoice_mem hspc with ⟨n, hn, hni⟩
      exact ⟨n, (mem_spiralCandidates.mp hn).1, hni⟩
    | none =>
      rw [hsp] at h
      dsimp only at h
      exact fallbackChoice_mem h

/-- C7: the selector returns `null` exactly when no catalog node's status is
`available`; any returned id names an available catalog node; and when the
spiral rule yields no candidate and no current node is set, it returns the
first available node in catalog order. -/
theorem C7_null_contract (nodes : List NodeDefinition)
    (m : String → Option ComputedNodeStatus) (s : AppSettings) (flag : Bool) :
    (computeRecommendedNextNodeId nodes m s flag = none ↔
      ∀ n ∈ nodes, (m n.id).map (·.status) ≠ some .available) ∧
    (∀ i, computeRecommendedNextNodeId nodes m s flag = some i →
      ∃ n ∈ nodes, n.id = i ∧ (m n.id).map (·.status) = some .available) ∧
    ((flag = false ∨ spiralCandidates nodes m = []) → s.currentNodeId = none →
      computeRecommendedNextNodeId nodes m s flag =
        (availableOf nodes m).head?.map (·.id)) := by
  refine ⟨rec_none_iff.trans availableOf_eq_nil_iff, ?_, ?_⟩
  · intro i hi
    rcases rec_mem hi with ⟨n, hn, hni⟩
    rcases mem_availableOf.mp hn with ⟨hmem, hstat⟩
    exact ⟨n, hmem, hni, hstat⟩
  · intro hsp hcur
    have hspnone : (if flag = true then spiralChoice nodes m s else none) = none := by
      rcases hsp with hf | hc
      · rw [hf]; simp
      · by_cases hf : flag = true
        · rw [if_pos hf]; exact spiralChoice_of_no_candidates hc
        · rw [if_neg hf]
    have hfb : fallbackChoice nodes m s = (availableOf nodes m).head?.map (·.id) := by
      unfold fallbackChoice currentNode
      rw [hcur]
    by_cases hemp : (availableOf nodes m).isEmpty
    · unfold computeRecommendedNextNodeId
      rw [if_pos hemp]
      rw [List.isEmpty_iff.mp hemp]
      rfl
    · unfold computeRecommendedNextNodeId
      rw [if_neg hemp]
      rw [hspnone]
      exact hfb

/-- Witness for C7 at a concrete one-node catalog: a single available tree
node is returned as the head of the available list. -/
theorem C7_null_contract_witness :
    computeRecommendedNextNodeId [⟨"a", .tree, [], [], ⟨none⟩⟩]
        (firstPass [⟨"a", .tree, [], [], ⟨none⟩⟩] []) ⟨none, none⟩ true =
      (availableOf [⟨"a", .tree, [], [], ⟨none⟩⟩]
        (firstPass [⟨"a", .tree, [], [], ⟨none⟩⟩] [])).head?.map (·.id) :=
  (C7_null_contract [⟨"a", .tree, [], [], ⟨none⟩⟩]
    (firstPass [⟨"a", .tree, [], [], ⟨none⟩⟩] []) ⟨none, none⟩ true).2.2
    (Or.inr rfl) rfl

theorem promoted_of_rec_some {nodes : List NodeDefinition} {completed : List String}
    {settings : AppSettings} {flag : Bool} {i : String} {e : ComputedNodeStatus}
    (hr : computeRecommendedNextNodeId nodes (firstPass nodes completed) settings flag = some i)
    (hne : i ≠ "")
    (he : firstPass nodes completed i = some e) (hs : e.status = .available) :
    computeNodeStatuses nodes completed settings flag i =
      some { e with status := .next, recommendedReason := some "recommended_next" } ∧
    ∀ j, j ≠ i → computeNodeStatuses nodes completed settings flag j =
      firstPass nodes completed j := by
  simp only [computeNodeStatuses]
  rw [hr]
  dsimp only
  rw [if_neg hne, he]
  dsimp only
  rw [if_pos hs]
  exact ⟨by simp, fun j hj => by simp [hj]⟩

theorem unpromoted_of_rec_none {nodes : List NodeDefinition} {completed : List String}
    {settings : AppSettings} {flag : Bool}
    (hr : computeRecommendedNextNodeId nodes (firstPass nodes completed) settings flag = none) :
    ∀ j, computeNodeStatuses nodes completed settings flag j =
      firstPass nodes completed j := by
  intro j
  simp only [computeNodeStatuses]
  rw [hr]

/-- C2 (amended: ids must be non-empty strings, which the JS truthiness
guard `if (nextNodeId)` silently requires): with at least one node available
after the first pass, exactly one node ends up `next`; with none available,
no node is `next`; and a node is only ever promoted from first-pass status
`available`. -/
theorem C2_single_next (nodes : List NodeDefinition) (completed : List String)
    (settings : AppSettings) (flag : Bool)
    (hid : ∀ n ∈ nodes, n.id ≠ "") :
    ((∃ n ∈ nodes, (firstPass nodes completed n.id).map (·.status) = some .available) →
      ∃! j, (computeNodeStatuses nodes completed settings flag j).map (·.status) =
        some .next) ∧
    ((¬ ∃ n ∈ nodes, (firstPass nodes completed n.id).map (·.status) = some .available) →
      ∀ j, (computeNodeStatuses nodes completed settings flag j).map (·.status) ≠
        some .next) ∧
    (∀ j, (computeNodeStatuses nodes completed settings flag j).map (·.status) =
        some .next →
      (firstPass nodes completed j).map (·.status) = some .available) := by
  refine ⟨?_, ?_, ?_⟩
  · rintro ⟨n, hn, havail⟩
    have hne : availableOf nodes (firstPass nodes completed) ≠ [] :=
      List.ne_nil_of_mem (mem_availableOf.mpr ⟨hn, havail⟩)
    have hsome : (computeRecommendedNextNodeId nodes (firstPass nodes completed)
        settings flag).isSome = true := rec_isSome hne
    rcases Option.isSome_iff_exists.mp hsome with ⟨i, hi⟩
    rcases rec_mem hi with ⟨n', hn', hni⟩
    rcases mem_availableOf.mp hn' with ⟨hmem', hstat'⟩
    rcases Option.map_eq_some'.mp hstat' with ⟨e, he, hes⟩
    rw [hni] at he
    rcases promoted_of_rec_some hi (hni ▸ hid n' hmem') he hes with ⟨hpromo, hframe⟩
    refine ⟨i, ?_, ?_⟩
    · dsimp only
      rw [hpromo]
      rfl
    · intro j hj
      by_contra hji
      rw [hframe j hji] at hj
      rcases Option.map_eq_some'.mp hj with ⟨e', he', hs'⟩
      exact firstPass_status_ne_next he' hs'
  · intro hnone j
    have hnil : availableOf nodes (firstPass nodes completed) = [] := by
      rw [availableOf_eq_nil_iff]
      intro n hn hc
      exact hnone ⟨n, hn, hc⟩
    have hr : computeRecommendedNextNodeId nodes (firstPass nodes completed)
        settings flag = none := rec_none_iff.mpr hnil
    rw [unpromoted_of_rec_none hr j]
    intro hj
    rcases Option.map_eq_some'.mp hj with ⟨e', he', hs'⟩
    exact firstPass_status_ne_next he' hs'
  · intro j hj
    rcases statuses_frame nodes completed settings flag with hall | ⟨j', e, he, hs, hp, hoth, _⟩
    · rw [hall j] at hj
      rcases Option.map_eq_some'.mp hj with ⟨e', he', hs'⟩
      exact absurd hs' (firstPass_status_ne_next he')
    · by_cases hjj : j = j'
      · subst hjj
        rw [he, Option.map_some', hs]
      · rw [hoth j hjj] at hj
        rcases Option.map_eq_some'.mp hj with ⟨e', he', hs'⟩
        exact absurd hs' (firstPass_status_ne_next he')

/-- Witness for C2 at a one-node catalog: the single available node is
promoted, so exactly one node is `next`. -/
theorem C2_single_next_witness :
    ∃! j, (computeNodeStatuses [⟨"a", .tree, [], [], ⟨none⟩⟩] [] ⟨none, none⟩ true j).map
      (·.status) = some .next :=
  (C2_single_next [⟨"a", .tree, [], [], ⟨none⟩⟩] [] ⟨none, none⟩ true (by decide)).1
    ⟨⟨"a", .tree, [], [], ⟨none⟩⟩, by simp, rfl⟩

/-- Counterexample to C2 as stated: a catalog whose only node has the empty
string as id.  The node is `available` after the first pass, yet no node is
marked `next`, because the recommendation `""` fails the JS truthiness guard
`if (nextNodeId)` in `computeNodeStatuses` and the promotion is skipped. -/
theorem C2_counterexample :
    (firstPass [⟨"", .tree, [], [], ⟨none⟩⟩] [] "").map (·.status) = some .available ∧
    ¬ ∃ j, (computeNodeStatuses [⟨"", .tree, [], [], ⟨none⟩⟩] [] ⟨none, none⟩ true j).map
      (·.status) = some .next := by
  refine ⟨rfl, ?_⟩
  rintro ⟨j, hj⟩
  have hfull : computeNodeStatuses [⟨"", .tree, [], [], ⟨none⟩⟩] [] ⟨none, none⟩ true j =
      firstPass [⟨"", .tree, [], [], ⟨none⟩⟩] [] j := rfl
  rw [hfull] at hj
  rcases Option.map_eq_some'.mp hj with ⟨e, he, hs⟩
  exact firstPass_status_ne_next he hs

theorem full_status_avail_or_next_first {nodes : List NodeDefinition}
    {completed : List String} {settings : AppSettings} {flag : Bool} {i : String}
    (h : (computeNodeStatuses nodes completed settings flag i).map (·.status) =
        some .available ∨
      (computeNodeStatuses nodes completed settings flag i).map (·.status) = some .next) :
    (firstPass nodes completed i).map (·.status) = some .available := by
  rcases statuses_frame nodes completed settings flag with hall | ⟨j, e, he, hs, hp, hoth, _⟩
  · rw [hall i] at h
    rcases h with h | h
    · exact h
    · rcases Option.map_eq_some'.mp h with ⟨e', he', hs'⟩
      exact absurd hs' (firstPass_status_ne_next he')
  · by_cases hij : i = j
    · subst hij
      rw [he, Option.map_some', hs]
    · rw [hoth i hij] at h
      rcases h with h | h
      · exact h
      · rcases Option.map_eq_some'.mp h with ⟨e', he', hs'⟩
        exact absurd hs' (firstPass_status_ne_next he')

theorem firstPass_avail_mono {nodes : List NodeDefinition} {completed : List String}
    {c : String} {i : String}
    (h : (firstPass nodes completed i).map (·.status) = some .available) :
    (firstPass nodes (c :: completed) i).map (·.status) = some .available ∨
    (firstPass nodes (c :: completed) i).map (·.status) = some .completed := by
  rw [firstPass_lookup] at h ⊢
  cases hf : nodes.reverse.find? (fun n => decide (n.id = i)) with
  | none => rw [hf] at h; cases h
  | some n =>
    simp only [hf, Option.map_some'] at h ⊢
    have hstat : (firstPassEntry completed n).status = .available := by injection h
    rcases (firstPassEntry_available_iff completed n).mp hstat with ⟨hc, hu⟩
    by_cases hcc : n.id ∈ c :: completed
    · right
      simp [firstPassEntry_of_completed hcc]
    · left
      have hnil : n.dependencies.filter (fun d => decide (d ∉ c :: completed)) = [] := by
        rw [List.filter_eq_nil_iff]
        intro d hd
        have hmem := (List.filter_eq_nil_iff.mp hu) d hd
        simp only [decide_eq_true_eq] at hmem ⊢
        intro hdc
        exact hdc (List.mem_cons_of_mem _ (not_not.mp hmem))
      simp [firstPassEntry_of_available hcc hnil]

theorem firstPass_avail_not_locked_after {nodes : List NodeDefinition}
    {completed : List String} {settings : AppSettings} {flag : Bool}
    {c : String} {i : String}
    (h : (firstPass nodes (c :: completed) i).map (·.status) = some .available ∨
      (firstPass nodes (c :: completed) i).map (·.status) = some .completed) :
    (computeNodeStatuses nodes (c :: completed) settings flag i).map (·.status) =
        some .available ∨
    (computeNodeStatuses nodes (c :: completed) settings flag i).map (·.status) =
        some .next ∨
    (computeNodeStatuses nodes (c :: completed) settings flag i).map (·.status) =
        some .completed := by
  rcases statuses_frame nodes (c :: completed) settings flag with
    hall | ⟨j, e, he, hs, hp, hoth, _⟩
  · rw [hall i]
    rcases h with h | h
    · exact Or.inl h
    · exact Or.inr (Or.inr h)
  · by_cases hij : i = j
    · subst hij
      rw [hp]
      exact Or.inr (Or.inl rfl)
    · rw [hoth i hij]
      rcases h with h | h
      · exact Or.inl h
      · exact Or.inr (Or.inr h)

/-- C5: for a fixed catalog, enlarging the completion set by one id is
monotonic — a node that is `available` or `next` never becomes `locked`;
it stays `available`/`next` or becomes `completed`. -/
theorem C5_completion_monotonic (nodes : List NodeDefinition) (completed : List String)
    (c : String) (settings settings' : AppSettings) (flag flag' : Bool) (i : String)
    (h : (computeNodeStatuses nodes completed settings flag i).map (·.status) =
        some .available ∨
      (computeNodeStatuses nodes completed settings flag i).map (·.status) = some .next) :
    (computeNodeStatuses nodes (c :: completed) settings' flag' i).map (·.status) =
        some .available ∨
    (computeNodeStatuses nodes (c :: completed) settings' flag' i).map (·.status) =
        some .next ∨
    (computeNodeStatuses nodes (c :: completed) settings' flag' i).map (·.status) =
        some .completed :=
  firstPass_avail_not_locked_after
    (firstPass_avail_mono (full_status_avail_or_next_first h))

/-- Witness for C5: completing `"b"` (the current `next` node) leaves it
non-locked (it becomes `completed`). -/
theorem C5_completion_monotonic_witness :
    (computeNodeStatuses [⟨"a", .tree, [], [], ⟨none⟩⟩, ⟨"b", .tree, ["a"], [], ⟨none⟩⟩]
        ("b" :: ["a"]) ⟨none, none⟩ true "b").map (·.status) = some .available ∨
    (computeNodeStatuses [⟨"a", .tree, [], [], ⟨none⟩⟩, ⟨"b", .tree, ["a"], [], ⟨none⟩⟩]
        ("b" :: ["a"]) ⟨none, none⟩ true "b").map (·.status) = some .next ∨
    (computeNodeStatuses [⟨"a", .tree, [], [], ⟨none⟩⟩, ⟨"b", .tree, ["a"], [], ⟨none⟩⟩]
        ("b" :: ["a"]) ⟨none, none⟩ true "b").map (·.status) = some .completed :=
  C5_completion_monotonic
    [⟨"a", .tree, [], [], ⟨none⟩⟩, ⟨"b", .tree, ["a"], [], ⟨none⟩⟩]
    ["a"] "b" ⟨none, none⟩ ⟨none, none⟩ true true "b" (Or.inr rfl)

/-- C6 (amended): the Status Engine does not raise on a dependency id that
is absent from the catalog — it never consults the catalog for dependency
membership at all; an id (missing or not) counts as satisfied exactly when
it is in the completion set.  In particular a missing dependency id that is
not in the completion set is reported as unmet: the node is `locked` and the
id appears in `unmetDependencies` — it is never silently treated as
satisfied. -/
theorem C6_missing_dependency_locks (nodes : List NodeDefinition) (completed : List String)
    (hnd : (nodes.map (·.id)).Nodup) :
    ∀ n ∈ nodes, ∀ d ∈ n.dependencies, d ∉ completed → n.id ∉ completed →
      ∃ e, firstPass nodes completed n.id = some e ∧ e.status = .locked ∧
        d ∈ e.unmetDependencies.getD [] := by
  intro n hn d hd hdc hnc
  have hu : n.dependencies.filter (fun x => decide (x ∉ completed)) ≠ [] := by
    intro hnil
    have := (List.filter_eq_nil_iff.mp hnil) d hd
    simp [hdc] at this
  refine ⟨firstPassEntry completed n, firstPass_lookup_self hnd hn completed, ?_, ?_⟩
  · rw [firstPassEntry_of_locked hnc hu]
  · rw [firstPassEntry_of_locked hnc hu]
    simp [List.mem_filter, hd, hdc]

/-- Witness for C6 (amended) on a one-node catalog whose dependency `"ghost"`
names no catalog node. -/
theorem C6_missing_dependency_locks_witness :
    ∃ e, firstPass [⟨"a", .tree, ["ghost"], [], ⟨none⟩⟩] []
        (NodeDefinition.id ⟨"a", .tree, ["ghost"], [], ⟨none⟩⟩) = some e ∧
      e.status = .locked ∧ "ghost" ∈ e.unmetDependencies.getD [] :=
  C6_missing_dependency_locks [⟨"a", .tree, ["ghost"], [], ⟨none⟩⟩] [] (by decide)
    ⟨"a", .tree, ["ghost"], [], ⟨none⟩⟩ (by decide) "ghost" (by decide) (by decide)
    (by decide)

/-- Counterexample to C6 as stated: on a catalog whose single node depends
on the nonexistent id `"ghost"`, the Status Engine does not raise — it
returns an ordinary status map assigning the node `locked` with `"ghost"`
among the unmet dependencies. -/
theorem C6_counterexample :
    computeNodeStatuses [⟨"a", .tree, ["ghost"], [], ⟨none⟩⟩] [] ⟨none, none⟩ true "a" =
      some { nodeId := "a", status := .locked, unmetDependencies := some ["ghost"] } := rfl

/-! ## Sortedness of the spiral candidate list -/

theorem insertCmp_sorted_key {α : Type} {f : α → Int} {l : List α} (x : α)
    (h : l.Pairwise (fun a b => f a ≤ f b)) :
    (insertCmp (fun a b => f a - f b) x l).Pairwise (fun a b => f a ≤ f b) := by
  induction l with
  | nil => simp [insertCmp]
  | cons y ys ih =>
    rw [insertCmp]
    by_cases hxy : f x - f y < 0
    · rw [if_pos hxy]
      refine List.pairwise_cons.mpr ⟨?_, h⟩
      intro b hb
      rcases List.mem_cons.mp hb with rfl | hb
      · omega
      · have hyb : f y ≤ f b := (List.pairwise_cons.mp h).1 b hb
        omega
    · rw [if_neg hxy]
      rcases List.pairwise_cons.mp h with ⟨hy, hys⟩
      refine List.pairwise_cons.mpr ⟨?_, ih hys⟩
      intro b hb
      have hb' : b ∈ x :: ys := (insertCmp_perm _ x ys).mem_iff.mp hb
      rcases List.mem_cons.mp hb' with rfl | hb'
      · omega
      · exact hy b hb'

theorem jsSort_sorted_key {α : Type} {f : α → Int} (l : List α) :
    (jsSort (fun a b => f a - f b) l).Pairwise (fun a b => f a ≤ f b) := by
  have general : ∀ (l acc : List α), acc.Pairwise (fun a b => f a ≤ f b) →
      (jsSortAux (fun a b => f a - f b) l acc).Pairwise (fun a b => f a ≤ f b) := by
    intro l
    induction l with
    | nil => intro acc h; exact h
    | cons x xs ih =>
      intro acc h
      exact ih _ (insertCmp_sorted_key x h)
  exact general l [] (by simp)

theorem spiralCandidates_sorted (nodes : List NodeDefinition)
    (m : String → Option ComputedNodeStatus) :
    (spiralCandidates nodes m).Pairwise
      (fun a b => spiralOrderD a ≤ spiralOrderD b) :=
  jsSort_sorted_key _

theorem find?_min_of_sorted {α : Type} {f : α → Int} {cur : Int} {l : List α} {k : α}
    (hs : l.Pairwise (fun a b => f a ≤ f b))
    (hf : l.find? (fun n => decide (cur ≤ f n)) = some k) :
    cur ≤ f k ∧ ∀ n ∈ l, cur ≤ f n → f k ≤ f n := by
  induction l with
  | nil => cases hf
  | cons a t ih =>
    rcases List.pairwise_cons.mp hs with ⟨ha, ht⟩
    by_cases hpa : cur ≤ f a
    · have hfa : (a :: t).find? (fun n => decide (cur ≤ f n)) = some a := by
        simp [List.find?, hpa]
      rw [hfa] at hf
      have hka : k = a := by injection hf with h; exact h.symm
      subst hka
      refine ⟨hpa, ?_⟩
      intro n hn _
      rcases List.mem_cons.mp hn with rfl | hn
      · exact le_refl _
      · exact ha n hn
    · have hstep : (a :: t).find? (fun n => decide (cur ≤ f n)) =
          t.find? (fun n => decide (cur ≤ f n)) := by
        simp [List.find?, hpa]
      rw [hstep] at hf
      rcases ih ht hf with ⟨h1, h2⟩
      refine ⟨h1, ?_⟩
      intro n hn hcn
      rcases List.mem_cons.mp hn with rfl | hn
      · exact absurd hcn hpa
      · exact h2 n hn hcn

theorem head_min_of_sorted {α : Type} {f : α → Int} {l : List α} {k : α}
    (hs : l.Pairwise (fun a b => f a ≤ f b)) (hh : l.head? = some k) :
    ∀ n ∈ l, f k ≤ f n := by
  cases l with
  | nil => cases hh
  | cons a t =>
    have hka : k = a := by injection hh with h; exact h.symm
    subst hka
    intro n hn
    rcases List.mem_cons.mp hn with rfl | hn
    · exact le_refl _
    · exact (List.pairwise_cons.mp hs).1 n hn

theorem rec_of_spiralChoice_some {nodes : List NodeDefinition}
    {m : String → Option ComputedNodeStatus} {s : AppSettings} {i : String}
    (hav : availableOf nodes m ≠ []) (h : spiralChoice nodes m s = some i) :
    computeRecommendedNextNodeId nodes m s true = some i := by
  unfold computeRecommendedNextNodeId
  rw [if_neg (by simpa [List.isEmpty_iff] using hav)]
  simp only [if_true]
  rw [h]

/-- C3: with spiral continuation preferred and `currentSpiralOrder` set, the
selector returns an available spiral node (with a spiral position) whose
order is minimal among those at or after `currentSpiralOrder`; when no
available spiral order reaches `currentSpiralOrder`, or it is unset, but
spiral candidates exist, it returns a candidate with the overall lowest
order. -/
theorem C3_spiral_rule (nodes : List NodeDefinition)
    (m : String → Option ComputedNodeStatus) (s : AppSettings) :
    (∀ cur, s.currentSpiralOrder = some cur →
      (∃ n ∈ spiralCandidates nodes m, cur ≤ spiralOrderD n) →
      ∃ k ∈ spiralCandidates nodes m,
        computeRecommendedNextNodeId nodes m s true = some k.id ∧
        cur ≤ spiralOrderD k ∧
        ∀ n ∈ spiralCandidates nodes m, cur ≤ spiralOrderD n →
          spiralOrderD k ≤ spiralOrderD n) ∧
    ((s.currentSpiralOrder = none ∨
      ∃ cur, s.currentSpiralOrder = some cur ∧
        ∀ n ∈ spiralCandidates nodes m, spiralOrderD n < cur) →
      spiralCandidates nodes m ≠ [] →
      ∃ k ∈ spiralCandidates nodes m,
        computeRecommendedNextNodeId nodes m s true = some k.id ∧
        ∀ n ∈ spiralCandidates nodes m, spiralOrderD k ≤ spiralOrderD n) := by
  have hsorted := spiralCandidates_sorted nodes m
  constructor
  · intro cur hcur hex
    have hfind : ((spiralCandidates nodes m).find?
        (fun n => decide (cur ≤ spiralOrderD n))).isSome = true := by
      rw [List.find?_isSome]
      rcases hex with ⟨n, hn, hcn⟩
      exact ⟨n, hn, by simpa using hcn⟩
    rcases Option.isSome_iff_exists.mp hfind with ⟨k, hk⟩
    have hmemk : k ∈ spiralCandidates nodes m := List.mem_of_find?_eq_some hk
    have hav : availableOf nodes m ≠ [] :=
      List.ne_nil_of_mem (mem_spiralCandidates.mp hmemk).1
    have hchoice : spiralChoice nodes m s = some k.id := by
      unfold spiralChoice
      rw [hcur]
      dsimp only
      rw [hk]
    rcases find?_min_of_sorted hsorted hk with ⟨h1, h2⟩
    exact ⟨k, hmemk, rec_of_spiralChoice_some hav hchoice, h1, h2⟩
  · intro hno hne
    rcases List.exists_mem_of_ne_nil _ hne with ⟨w, hw⟩
    have hav : availableOf nodes m ≠ [] :=
      List.ne_nil_of_mem (mem_spiralCandidates.mp hw).1
    have hhead : ((spiralCandidates nodes m).head?).isSome = true := by
      cases hl : spiralCandidates nodes m with
      | nil => exact absurd hl hne
      | cons a t => simp
    rcases Option.isSome_iff_exists.mp hhead with ⟨k, hk⟩
    have hmemk : k ∈ spiralCandidates nodes m := List.mem_of_mem_head? (by rw [hk]; rfl)
    have hchoice : spiralChoice nodes m s = some k.id := by
      unfold spiralChoice
      rcases hno with hnone | ⟨cur, hcur, hbelow⟩
      · rw [hnone]
        dsimp only
        rw [hk]
        rfl
      · rw [hcur]
        dsimp only
        have hfn : (spiralCandidates nodes m).find?
            (fun n => decide (cur ≤ spiralOrderD n)) = none := by
          rw [List.find?_eq_none]
          intro n hn
          simpa using not_le.mpr (hbelow n hn)
        rw [hfn]
        dsimp only
        rw [hk]
        rfl
    exact ⟨k, hmemk, rec_of_spiralChoice_some hav hchoice,
      head_min_of_sorted hsorted hk⟩

/-- Witness for C3 (the spec's spiral continuation scenario): spiral nodes
with orders 1, 2, 3; node 1 completed; `currentSpiralOrder = 1`; the
selector resumes at the minimal available order ≥ 1, namely node 2. -/
theorem C3_spiral_rule_witness :
    ∃ k ∈ spiralCandidates
        [⟨"s1", .spiral, [], [], ⟨some ⟨0, 0, 1⟩⟩⟩,
         ⟨"s2", .spiral, [], [], ⟨some ⟨0, 0, 2⟩⟩⟩,
         ⟨"s3", .spiral, [], [], ⟨some ⟨0, 0, 3⟩⟩⟩]
        (firstPass
          [⟨"s1", .spiral, [], [], ⟨some ⟨0, 0, 1⟩⟩⟩,
           ⟨"s2", .spiral, [], [], ⟨some ⟨0, 0, 2⟩⟩⟩,
           ⟨"s3", .spiral, [], [], ⟨some ⟨0, 0, 3⟩⟩⟩] ["s1"]),
      computeRecommendedNextNodeId
        [⟨"s1", .spiral, [], [], ⟨some ⟨0, 0, 1⟩⟩⟩,
         ⟨"s2", .spiral, [], [], ⟨some ⟨0, 0, 2⟩⟩⟩,
         ⟨"s3", .spiral, [], [], ⟨some ⟨0, 0, 3⟩⟩⟩]
        (firstPass
          [⟨"s1", .spiral, [], [], ⟨some ⟨0, 0, 1⟩⟩⟩,
           ⟨"s2", .spiral, [], [], ⟨some ⟨0, 0, 2⟩⟩⟩,
           ⟨"s3", .spiral, [], [], ⟨some ⟨0, 0, 3⟩⟩⟩] ["s1"])
        ⟨none, some 1⟩ true = some k.id ∧
      1 ≤ spiralOrderD k ∧
      ∀ n ∈ spiralCandidates
          [⟨"s1", .spiral, [], [], ⟨some ⟨0, 0, 1⟩⟩⟩,
           ⟨"s2", .spiral, [], [], ⟨some ⟨0, 0, 2⟩⟩⟩,
           ⟨"s3", .spiral, [], [], ⟨some ⟨0, 0, 3⟩⟩⟩]
          (firstPass
            [⟨"s1", .spiral, [], [], ⟨some ⟨0, 0, 1⟩⟩⟩,
             ⟨"s2", .spiral, [], [], ⟨some ⟨0, 0, 2⟩⟩⟩,
             ⟨"s3", .spiral, [], [], ⟨some ⟨0, 0, 3⟩⟩⟩] ["s1"]),
        1 ≤ spiralOrderD n → spiralOrderD k ≤ spiralOrderD n :=
  (C3_spiral_rule _ _ ⟨none, some 1⟩).1 1 rfl (by decide)

/-! ## The tag-overlap fallback

The comparator `(b.overlap - a.overlap) || (b.isSpiral ? 1 : -1)` ignores
`a.isSpiral`, so equal-overlap pairs of equal type compare inconsistently.
Still, the head of the modelled sort always carries a maximal overlap, and
is spiral whenever some maximal-overlap element is spiral. -/

theorem insertCmp_scored_head (x : Scored) (l : List Scored)
    (hl : ∀ h, l.head? = some h → (∀ b ∈ l, b.overlap ≤ h.overlap) ∧
      ((∃ b ∈ l, h.overlap ≤ b.overlap ∧ b.isSpiral = true) → h.isSpiral = true)) :
    ∀ h, (insertCmp scoredCmp x l).head? = some h →
      (∀ b ∈ insertCmp scoredCmp x l, b.overlap ≤ h.overlap) ∧
      ((∃ b ∈ insertCmp scoredCmp x l, h.overlap ≤ b.overlap ∧ b.isSpiral = true) →
        h.isSpiral = true) := by
  cases l with
  | nil =>
    intro h hh
    have hx : h = x := by
      rw [show insertCmp scoredCmp x [] = [x] from rfl] at hh
      injection hh with h'
      exact h'.symm
    subst hx
    rw [show insertCmp scoredCmp h [] = [h] from rfl]
    constructor
    · intro b hb
      rw [List.mem_singleton.mp hb]
    · rintro ⟨b, hb, hov, hsp⟩
      exact (List.mem_singleton.mp hb) ▸ hsp
  | cons y ys =>
    intro h hh
    rw [insertCmp] at hh ⊢
    by_cases hcmp : scoredCmp x y < 0
    · rw [if_pos hcmp] at hh ⊢
      have hx : h = x := by injection hh with h'; exact h'.symm
      subst hx
      have hyx : y.overlap < h.overlap ∨ (y.overlap = h.overlap ∧ y.isSpiral = false) := by
        unfold scoredCmp jsOr at hcmp
        by_cases heq : y.overlap - h.overlap = 0
        · rw [if_pos heq] at hcmp
          by_cases hys : y.isSpiral
          · rw [if_pos hys] at hcmp; omega
          · exact Or.inr ⟨by omega, by simpa using hys⟩
        · rw [if_neg heq] at hcmp
          exact Or.inl (by omega)
      have hydom := hl y rfl
      constructor
      · intro b hb
        rcases List.mem_cons.mp hb with rfl | hb
        · exact le_refl _
        · have hby : b.overlap ≤ y.overlap := hydom.1 b hb
          rcases hyx with h1 | ⟨h1, _⟩ <;> omega
      · rintro ⟨b, hb, hov, hsp⟩
        rcases List.mem_cons.mp hb with rfl | hb
        · exact hsp
        · have hby : b.overlap ≤ y.overlap := hydom.1 b hb
          rcases hyx with h1 | ⟨h1, hns⟩
          · omega
          · have hysp : y.isSpiral = true := hydom.2 ⟨b, hb, by omega, hsp⟩
            rw [hns] at hysp
            cases hysp
    · rw [if_neg hcmp] at hh ⊢
      have hy : h = y := by injection hh with h'; exact h'.symm
      subst hy
      have hxy : x.overlap < h.overlap ∨ (x.overlap = h.overlap ∧ h.isSpiral = true) := by
        unfold scoredCmp jsOr at hcmp
        by_cases heq : h.overlap - x.overlap = 0
        · rw [if_pos heq] at hcmp
          by_cases hys : h.isSpiral
          · exact Or.inr ⟨by omega, by simpa using hys⟩
          · rw [if_neg hys] at hcmp; omega
        · rw [if_neg heq] at hcmp
          exact Or.inl (by omega)
      have hydom := hl h rfl
      constructor
      · intro b hb
        rcases List.mem_cons.mp hb with rfl | hb
        · exact le_refl _
        · have hb' : b ∈ x :: ys := (insertCmp_perm scoredCmp x ys).mem_iff.mp hb
          rcases List.mem_cons.mp hb' with rfl | hb'
          · rcases hxy with h1 | ⟨h1, _⟩ <;> omega
          · exact hydom.1 b (List.mem_cons_of_mem _ hb')
      · rintro ⟨b, hb, hov, hsp⟩
        rcases List.mem_cons.mp hb with rfl | hb
        · exact hsp
        · have hb' : b ∈ x :: ys := (insertCmp_perm scoredCmp x ys).mem_iff.mp hb
          rcases List.mem_cons.mp hb' with rfl | hb'
          · rcases hxy with h1 | ⟨_, h2⟩
            · omega
            · exact h2
          · exact hydom.2 ⟨b, List.mem_cons_of_mem _ hb', hov, hsp⟩

theorem jsSort_scored_head (l : List Scored) :
    ∀ h, (jsSort scoredCmp l).head? = some h →
      (∀ b ∈ l, b.overlap ≤ h.overlap) ∧
      ((∃ b ∈ l, h.overlap ≤ b.overlap ∧ b.isSpiral = true) → h.isSpiral = true) := by
  have general : ∀ (l acc : List Scored),
      (∀ h, acc.head? = some h → (∀ b ∈ acc, b.overlap ≤ h.overlap) ∧
        ((∃ b ∈ acc, h.overlap ≤ b.overlap ∧ b.isSpiral = true) → h.isSpiral = true)) →
      ∀ h, (jsSortAux scoredCmp l acc).head? = some h →
        (∀ b ∈ jsSortAux scoredCmp l acc, b.overlap ≤ h.overlap) ∧
        ((∃ b ∈ jsSortAux scoredCmp l acc, h.overlap ≤ b.overlap ∧ b.isSpiral = true) →
          h.isSpiral = true) := by
    intro l
    induction l with
    | nil =>
      intro acc hacc
      simpa only [jsSortAux] using hacc
    | cons x xs ih =>
      intro acc hacc
      simp only [jsSortAux]
      exact ih _ (insertCmp_scored_head x acc hacc)
  intro h hh
  have hres := general l [] (by intro h hh'; cases hh') h hh
  refine ⟨?_, ?_⟩
  · intro b hb
    exact hres.1 b (mem_jsSort.mpr hb)
  · rintro ⟨b, hb, hov, hsp⟩
    exact hres.2 ⟨b, mem_jsSort.mpr hb, hov, hsp⟩

theorem rec_fallback_eq {nodes : List NodeDefinition}
    {m : String → Option ComputedNodeStatus} {s : AppSettings}
    (hav : availableOf nodes m ≠ []) :
    computeRecommendedNextNodeId nodes m s false = fallbackChoice nodes m s := by
  unfold computeRecommendedNextNodeId
  rw [if_neg (by simpa [List.isEmpty_iff] using hav)]
  rfl

/-- C4 (amended): in the tag-overlap fallback, with a non-empty
`currentNodeId` that resolves to a catalog node, the selector returns an
available node of maximal tag overlap with the current node's tags, and one
of type `spiral` whenever some maximal-overlap available node is spiral.
No catalog-order tie-break exists: among equal-overlap nodes of equal kind
the source's comparator is inconsistent (it reads only its second
argument's type), so the order of such ties is not catalog order — in
particular, of two tied non-spiral nodes the later one is returned (see the
counterexample), while two tied spiral nodes happen to keep their insertion
order. -/
theorem C4_tag_fallback (nodes : List NodeDefinition)
    (m : String → Option ComputedNodeStatus) (s : AppSettings)
    (cid : String) (cnode : NodeDefinition)
    (hcid : s.currentNodeId = some cid) (hne : cid ≠ "")
    (hfind : nodes.find? (fun n => decide (n.id = cid)) = some cnode)
    (hav : availableOf nodes m ≠ []) :
    ∃ k ∈ availableOf nodes m,
      computeRecommendedNextNodeId nodes m s false = some k.id ∧
      (∀ b ∈ availableOf nodes m,
        tagOverlap cnode.tags b ≤ tagOverlap cnode.tags k) ∧
      ((∃ b ∈ availableOf nodes m,
        tagOverlap cnode.tags k ≤ tagOverlap cnode.tags b ∧ b.type = .spiral) →
        k.type = .spiral) := by
  have hcur : currentNode nodes s = some cnode := by
    unfold currentNode
    rw [hcid]
    dsimp only
    rw [if_neg hne]
    exact hfind
  have hlen : jsSort scoredCmp ((availableOf nodes m).map (mkScored cnode.tags)) ≠ [] := by
    intro hnil
    have hperm := jsSort_perm scoredCmp ((availableOf nodes m).map (mkScored cnode.tags))
    rw [hnil] at hperm
    have hlen0 := hperm.symm.length_eq
    simp at hlen0
    exact hav hlen0
  obtain ⟨sc, hsc⟩ : ∃ sc,
      (jsSort scoredCmp ((availableOf nodes m).map (mkScored cnode.tags))).head? =
        some sc := by
    cases hl : jsSort scoredCmp ((availableOf nodes m).map (mkScored cnode.tags)) with
    | nil => exact absurd hl hlen
    | cons a t => exact ⟨a, rfl⟩
  have hfb : fallbackChoice nodes m s = some sc.id := by
    unfold fallbackChoice
    rw [hcur]
    dsimp only
    rw [hsc]
  have hdom := jsSort_scored_head _ sc hsc
  have hscmem : sc ∈ (availableOf nodes m).map (mkScored cnode.tags) :=
    mem_jsSort.mp (List.mem_of_mem_head? (by rw [hsc]; rfl))
  rcases List.mem_map.mp hscmem with ⟨k, hk, hks⟩
  refine ⟨k, hk, ?_, ?_, ?_⟩
  · rw [rec_fallback_eq hav, hfb, ← hks]
    rfl
  · intro b hb
    have hble := hdom.1 (mkScored cnode.tags b) (List.mem_map_of_mem _ hb)
    rw [← hks] at hble
    simpa [mkScored] using hble
  · rintro ⟨b, hb, hov, hsp⟩
    have hspb : (mkScored cnode.tags b).isSpiral = true := by simp [mkScored, hsp]
    have hovb : sc.overlap ≤ (mkScored cnode.tags b).overlap := by
      rw [← hks]
      simpa [mkScored] using hov
    have hscsp := hdom.2 ⟨mkScored cnode.tags b, List.mem_map_of_mem _ hb, hovb, hspb⟩
    rw [← hks] at hscsp
    simpa [mkScored] using hscsp

/-- Counterexample to C4's final catalog-order tie-break: current node
`"c"` has tags `["t"]`; the two available nodes `"n1"`, `"n2"` (in catalog
order) are both non-spiral with tag overlap 0.  The claim requires the
earlier node `"n1"`; the selector returns `"n2"` — for the tied pair the
comparator returns `-1` in both argument orders, and the engine's
insertion places the later element first. -/
theorem C4_counterexample :
    computeRecommendedNextNodeId
        [⟨"c", .tree, [], ["t"], ⟨none⟩⟩,
         ⟨"n1", .tree, [], [], ⟨none⟩⟩,
         ⟨"n2", .tree, [], [], ⟨none⟩⟩]
        (firstPass
          [⟨"c", .tree, [], ["t"], ⟨none⟩⟩,
           ⟨"n1", .tree, [], [], ⟨none⟩⟩,
           ⟨"n2", .tree, [], [], ⟨none⟩⟩] ["c"])
        ⟨some "c", none⟩ false = some "n2" ∧ ("n2" : String) ≠ "n1" :=
  ⟨rfl, by decide⟩

/-- Witness for C4 (amended): with current tags `["t"]`, the available
spiral node sharing the tag beats the available tree node sharing it. -/
theorem C4_tag_fallback_witness :
    ∃ k ∈ availableOf
        [⟨"c", .tree, [], ["t"], ⟨none⟩⟩,
         ⟨"tr", .tree, [], ["t"], ⟨none⟩⟩,
         ⟨"sp", .spiral, [], ["t"], ⟨some ⟨0, 0, 1⟩⟩⟩]
        (firstPass
          [⟨"c", .tree, [], ["t"], ⟨none⟩⟩,
           ⟨"tr", .tree, [], ["t"], ⟨none⟩⟩,
           ⟨"sp", .spiral, [], ["t"], ⟨some ⟨0, 0, 1⟩⟩⟩] ["c"]),
      computeRecommendedNextNodeId
        [⟨"c", .tree, [], ["t"], ⟨none⟩⟩,
         ⟨"tr", .tree, [], ["t"], ⟨none⟩⟩,
         ⟨"sp", .spiral, [], ["t"], ⟨some ⟨0, 0, 1⟩⟩⟩]
        (firstPass
          [⟨"c", .tree, [], ["t"], ⟨none⟩⟩,
           ⟨"tr", .tree, [], ["t"], ⟨none⟩⟩,
           ⟨"sp", .spiral, [], ["t"], ⟨some ⟨0, 0, 1⟩⟩⟩] ["c"])
        ⟨some "c", none⟩ false = some k.id ∧
      (∀ b ∈ availableOf
          [⟨"c", .tree, [], ["t"], ⟨none⟩⟩,
           ⟨"tr", .tree, [], ["t"], ⟨none⟩⟩,
           ⟨"sp", .spiral, [], ["t"], ⟨some ⟨0, 0, 1⟩⟩⟩]
          (firstPass
            [⟨"c", .tree, [], ["t"], ⟨none⟩⟩,
             ⟨"tr", .tree, [], ["t"], ⟨none⟩⟩,
             ⟨"sp", .spiral, [], ["t"], ⟨some ⟨0, 0, 1⟩⟩⟩] ["c"]),
        tagOverlap (NodeDefinition.tags ⟨"c", .tree, [], ["t"], ⟨none⟩⟩) b ≤
          tagOverlap (NodeDefinition.tags ⟨"c", .tree, [], ["t"], ⟨none⟩⟩) k) ∧
      ((∃ b ∈ availableOf
          [⟨"c", .tree, [], ["t"], ⟨none⟩⟩,
           ⟨"tr", .tree, [], ["t"], ⟨none⟩⟩,
           ⟨"sp", .spiral, [], ["t"], ⟨some ⟨0, 0, 1⟩⟩⟩]
          (firstPass
            [⟨"c", .tree, [], ["t"], ⟨none⟩⟩,
             ⟨"tr", .tree, [], ["t"], ⟨none⟩⟩,
             ⟨"sp", .spiral, [], ["t"], ⟨some ⟨0, 0, 1⟩⟩⟩] ["c"]),
        tagOverlap (NodeDefinition.tags ⟨"c", .tree, [], ["t"], ⟨none⟩⟩) k ≤
          tagOverlap (NodeDefinition.tags ⟨"c", .tree, [], ["t"], ⟨none⟩⟩) b ∧
          b.type = .spiral) → k.type = .spiral) :=
  C4_tag_fallback
    [⟨"c", .tree, [], ["t"], ⟨none⟩⟩,
     ⟨"tr", .tree, [], ["t"], ⟨none⟩⟩,
     ⟨"sp", .spiral, [], ["t"], ⟨some ⟨0, 0, 1⟩⟩⟩]
    (firstPass
      [⟨"c", .tree, [], ["t"], ⟨none⟩⟩,
       ⟨"tr", .tree, [], ["t"], ⟨none⟩⟩,
       ⟨"sp", .spiral, [], ["t"], ⟨some ⟨0, 0, 1⟩⟩⟩] ["c"])
    ⟨some "c", none⟩ "c" ⟨"c", .tree, [], ["t"], ⟨none⟩⟩ rfl (by decide) (by decide)
    (by decide)

/-! ## Cycle detection: supporting lemmas -/

theorem chain'_drop {α : Type} {R : α → α → Prop} {l : List α}
    (h : List.Chain' R l) : ∀ n, List.Chain' R (l.drop n) := by
  intro n
  induction n with
  | zero => exact h
  | succ n ih =>
    rw [← List.tail_drop]
    exact ih.tail

theorem indexOf_drop_cons {x : String} {l : List String} (h : x ∈ l) :
    ∃ t, l.drop (l.indexOf x) = x :: t := by
  induction l with
  | nil => cases h
  | cons a l ih =>
    by_cases hax : a = x
    · subst hax
      exact ⟨l, by rw [List.indexOf_cons_self]; rfl⟩
    · have hx : x ∈ l := by
        rcases List.mem_cons.mp h with rfl | h'
        · exact absurd rfl hax
        · exact h'
      rcases ih hx with ⟨t, ht⟩
      refine ⟨t, ?_⟩
      rw [List.indexOf_cons_ne _ (by exact fun he => hax he)]
      simpa using ht

theorem filter_fresh_decrease {ids V : List String} {x : String}
    (hx : x ∈ ids) (hnx : ¬ V.contains x = true) :
    (ids.filter (fun i => !((x :: V).contains i))).length <
      (ids.filter (fun i => !(V.contains i))).length := by
  have hsub : List.Sublist (ids.filter (fun i => !((x :: V).contains i)))
      (ids.filter (fun i => !(V.contains i))) := by
    apply List.monotone_filter_right
    intro a ha
    simp only [Bool.not_eq_true', List.contains_cons, Bool.or_eq_false_iff] at ha ⊢
    exact ha.2
  rcases Nat.eq_or_lt_of_le hsub.length_le with heq | hlt
  · exfalso
    have heql := hsub.eq_of_length heq
    have hxmem : x ∈ ids.filter (fun i => !(V.contains i)) :=
      List.mem_filter.mpr ⟨hx, by simpa using hnx⟩
    rw [← heql] at hxmem
    have hbad := (List.mem_filter.mp hxmem).2
    simp [List.contains_cons] at hbad
  · exact hlt

theorem pd_visiting {ids : List String}
    {rec : String → DfsState → Option (Except ValidationError DfsState)} {x : String}
    (hrec : ∀ d st st', rec d st = some (.ok st') → st'.visiting = st.visiting) :
    ∀ ds st st', processDeps ids rec x ds st = some (.ok st') →
      st'.visiting = st.visiting := by
  intro ds
  induction ds with
  | nil =>
    intro st st' h
    simp only [processDeps] at h
    injection h with h1
    injection h1 with h2
    rw [← h2]
  | cons d ds ih =>
    intro st st' h
    simp only [processDeps] at h
    by_cases hc : ids.contains d
    · rw [if_pos hc] at h
      cases hr : rec d st with
      | none => rw [hr] at h; cases h
      | some r =>
        cases r with
        | ok st1 =>
          rw [hr] at h
          dsimp only at h
          rw [ih st1 st' h, hrec d st st1 hr]
        | error e =>
          rw [hr] at h
          dsimp only at h
          cases h
    · rw [if_neg hc] at h
      cases h

theorem dfs_visiting {ids : List String} {deps : String → List String} :
    ∀ fuel x stack st st', dfs ids deps fuel x stack st = some (.ok st') →
      st'.visiting = st.visiting := by
  intro fuel
  induction fuel with
  | zero =>
    intro x stack st st' h
    simp only [dfs] at h
    cases h
  | succ fuel ih =>
    intro x stack st st' h
    simp only [dfs] at h
    by_cases h1 : st.visiting.contains x
    · rw [if_pos h1] at h
      cases h
    · rw [if_neg h1] at h
      by_cases h2 : st.visited.contains x
      · rw [if_pos h2] at h
        injection h with h'
        injection h' with h''
        rw [← h'']
      · rw [if_neg h2] at h
        cases hp : processDeps ids (fun d st' => dfs ids deps fuel d (stack ++ [x]) st') x
            (deps x) { st with visiting := x :: st.visiting } with
        | none => rw [hp] at h; cases h
        | some r =>
          cases r with
          | error e =>
            rw [hp] at h
            dsimp only at h
            cases h
          | ok st2 =>
            rw [hp] at h
            dsimp only at h
            injection h with h'
            injection h' with h''
            have hv : st2.visiting = x :: st.visiting :=
              pd_visiting (fun d s s' hd => ih d (stack ++ [x]) s s' hd) (deps x) _ st2 hp
            rw [← h'']
            dsimp only
            rw [hv]
            exact List.erase_cons_head x st.visiting

theorem pd_ok_post {ids : List String} {deps : String → List String}
    {rec : String → DfsState → Option (Except ValidationError DfsState)} {x : String}
    (hrec : ∀ d st st', rec d st = some (.ok st') → DfsInv deps st →
      DfsInv deps st' ∧ (∀ i ∈ st.visited, i ∈ st'.visited) ∧ d ∈ st'.visited) :
    ∀ ds st st', processDeps ids rec x ds st = some (.ok st') → DfsInv deps st →
      DfsInv deps st' ∧ (∀ i ∈ st.visited, i ∈ st'.visited) ∧
        ∀ d ∈ ds, d ∈ st'.visited := by
  intro ds
  induction ds with
  | nil =>
    intro st st' h hinv
    simp only [processDeps] at h
    injection h with h1
    injection h1 with h2
    subst h2
    exact ⟨hinv, fun i hi => hi, by simp⟩
  | cons d ds ih =>
    intro st st' h hinv
    simp only [processDeps] at h
    by_cases hc : ids.contains d
    · rw [if_pos hc] at h
      cases hr : rec d st with
      | none => rw [hr] at h; cases h
      | some r =>
        cases r with
        | error e => rw [hr] at h; dsimp only at h; cases h
        | ok st1 =>
          rw [hr] at h
          dsimp only at h
          rcases hrec d st st1 hr hinv with ⟨hinv1, hmono1, hd1⟩
          rcases ih st1 st' h hinv1 with ⟨hinv', hmono', hall'⟩
          refine ⟨hinv', fun i hi => hmono' i (hmono1 i hi), ?_⟩
          intro d' hd'
          rcases List.mem_cons.mp hd' with rfl | hd'
          · exact hmono' d' hd1
          · exact hall' d' hd'
    · rw [if_neg hc] at h
      cases h

theorem dfs_ok_post {ids : List String} {deps : String → List String} :
    ∀ fuel x stack st st', dfs ids deps fuel x stack st = some (.ok st') →
      DfsInv deps st →
      DfsInv deps st' ∧ (∀ i ∈ st.visited, i ∈ st'.visited) ∧ x ∈ st'.visited := by
  intro fuel
  induction fuel with
  | zero =>
    intro x stack st st' h _
    simp only [dfs] at h
    cases h
  | succ fuel ih =>
    intro x stack st st' h hinv
    simp only [dfs] at h
    by_cases h1 : st.visiting.contains x
    · rw [if_pos h1] at h
      cases h
    · rw [if_neg h1] at h
      by_cases h2 : st.visited.contains x
      · rw [if_pos h2] at h
        injection h with h'
        injection h' with h''
        subst h''
        exact ⟨hinv, fun i hi => hi, by simpa using h2⟩
      · rw [if_neg h2] at h
        cases hp : processDeps ids (fun d st' => dfs ids deps fuel d (stack ++ [x]) st') x
            (deps x) { st with visiting := x :: st.visiting } with
        | none => rw [hp] at h; cases h
        | some r =>
          cases r with
          | error e => rw [hp] at h; dsimp only at h; cases h
          | ok st2 =>
            rw [hp] at h
            dsimp only at h
            injection h with h'
            injection h' with h''
            subst h''
            have hxnv : ¬ x ∈ st.visited := by simpa using h2
            have hinv1 : DfsInv deps { st with visiting := x :: st.visiting } := by
              rcases hinv with ⟨hnd, hdc, hdisj⟩
              refine ⟨hnd, hdc, ?_⟩
              intro i hi
              rcases List.mem_cons.mp hi with rfl | hi
              · exact hxnv
              · exact hdisj i hi
            rcases pd_ok_post (fun d s s' hd hs => ih d (stack ++ [x]) s s' hd hs)
              (deps x) _ st2 hp hinv1 with ⟨hinv2, hmono2, halld⟩
            have hv2 : st2.visiting = x :: st.visiting :=
              pd_visiting (fun d s s' hd => dfs_visiting fuel d (stack ++ [x]) s s' hd)
                (deps x) _ st2 hp
            rcases hinv2 with ⟨hnd2, hdc2, hdisj2⟩
            have hxnv2 : x ∉ st2.visited := by
              apply hdisj2
              rw [hv2]
              exact List.mem_cons_self x _
            refine ⟨⟨?_, ?_, ?_⟩, ?_, ?_⟩
            · exact List.nodup_cons.mpr ⟨hxnv2, hnd2⟩
            · exact ⟨halld, hdc2⟩
            · intro i hi
              have hi' : i ∈ st2.visiting := List.mem_of_mem_erase hi
              have hine : i ∉ st2.visited := hdisj2 i hi'
              intro hmem
              rcases List.mem_cons.mp hmem with rfl | hmem
              · rw [hv2, List.erase_cons_head] at hi
                exact h1 (by simpa using hi)
              · exact hine hmem
            · intro i hi
              exact List.mem_cons_of_mem _ (hmono2 i hi)
            · exact List.mem_cons_self x _

theorem pd_cycle_sound {ids : List String} {deps : String → List String}
    {rec : String → DfsState → Option (Except ValidationError DfsState)}
    {x : String} {V : List String}
    (hrecvis : ∀ d st st', rec d st = some (.ok st') → st'.visiting = st.visiting)
    (hrec : ∀ d st p, st.visiting = V → d ∈ deps x →
      rec d st = some (.error (.cycle p)) →
      ∃ a t, p = a :: (t ++ [a]) ∧ List.Chain (fun u v => v ∈ deps u) a (t ++ [a])) :
    ∀ ds st p, st.visiting = V → (∀ d ∈ ds, d ∈ deps x) →
      processDeps ids rec x ds st = some (.error (.cycle p)) →
      ∃ a t, p = a :: (t ++ [a]) ∧ List.Chain (fun u v => v ∈ deps u) a (t ++ [a]) := by
  intro ds
  induction ds with
  | nil =>
    intro st p _ _ h
    simp only [processDeps] at h
    cases h
  | cons d ds ih =>
    intro st p hv hds h
    simp only [processDeps] at h
    by_cases hc : ids.contains d
    · rw [if_pos hc] at h
      cases hr : rec d st with
      | none => rw [hr] at h; cases h
      | some r =>
        cases r with
        | error e =>
          rw [hr] at h
          dsimp only at h
          injection h with h'
          injection h' with h''
          subst h''
          exact hrec d st p hv (hds d (by simp)) hr
        | ok st1 =>
          rw [hr] at h
          dsimp only at h
          exact ih st1 p (by rw [hrecvis d st st1 hr, hv])
            (fun d' hd' => hds d' (List.mem_cons_of_mem _ hd')) h
    · rw [if_neg hc] at h
      injection h with h'
      injection h' with h''
      cases h''

theorem dfs_cycle_sound {ids : List String} {deps : String → List String} :
    ∀ fuel x stack st p,
      st.visiting = stack.reverse →
      List.Chain' (fun u v => v ∈ deps u) (stack ++ [x]) →
      dfs ids deps fuel x stack st = some (.error (.cycle p)) →
      ∃ a t, p = a :: (t ++ [a]) ∧
        List.Chain (fun u v => v ∈ deps u) a (t ++ [a]) := by
  intro fuel
  induction fuel with
  | zero =>
    intro x stack st p _ _ h
    simp only [dfs] at h
    cases h
  | succ fuel ih =>
    intro x stack st p hvis hch h
    simp only [dfs] at h
    by_cases h1 : st.visiting.contains x
    · rw [if_pos h1] at h
      injection h with h'
      injection h' with h''
      injection h'' with h3
      have hxs : x ∈ stack := by
        have hx : x ∈ st.visiting := by simpa using h1
        rw [hvis] at hx
        exact List.mem_reverse.mp hx
      rcases indexOf_drop_cons hxs with ⟨t, ht⟩
      refine ⟨x, t, ?_, ?_⟩
      · rw [← h3, ht]
        rfl
      · have hle : stack.indexOf x ≤ stack.length :=
          le_of_lt (List.indexOf_lt_length.mpr hxs)
        have hdropeq : (stack ++ [x]).drop (stack.indexOf x) = (x :: t) ++ [x] := by
          rw [List.drop_append_of_le_length hle, ht]
        have hch' := chain'_drop hch (stack.indexOf x)
        rw [hdropeq] at hch'
        exact hch'
    · rw [if_neg h1] at h
      by_cases h2 : st.visited.contains x
      · rw [if_pos h2] at h
        cases h
      · rw [if_neg h2] at h
        cases hp : processDeps ids (fun d st' => dfs ids deps fuel d (stack ++ [x]) st') x
            (deps x) { st with visiting := x :: st.visiting } with
        | none => rw [hp] at h; cases h
        | some r =>
          cases r with
          | ok st2 => rw [hp] at h; dsimp only at h; cases h
          | error e =>
            rw [hp] at h
            dsimp only at h
            injection h with h'
            injection h' with h''
            subst h''
            refine pd_cycle_sound (V := (stack ++ [x]).reverse)
              (fun d s s' hd => dfs_visiting fuel d (stack ++ [x]) s s' hd)
              ?_ (deps x) _ p ?_ (fun d hd => hd) hp
            · intro d s p' hsv hdd hdfs
              apply ih d (stack ++ [x]) s p' hsv ?_ hdfs
              rw [List.chain'_append]
              refine ⟨hch, List.chain'_singleton d, ?_⟩
              intro y hy z hz
              have hyx : y = x := by
                rw [List.getLast?_concat] at hy
                have hyx' := Option.mem_def.mp hy
                injection hyx' with hyx''
                exact hyx''.symm
              have hzd : z = d := by
                have hzd' := Option.mem_def.mp hz
                injection hzd' with hzd''
                exact hzd''.symm
              subst hyx
              subst hzd
              exact hdd
            · show x :: st.visiting = (stack ++ [x]).reverse
              rw [hvis, List.reverse_append]
              simp

theorem pd_ne_none {ids : List String}
    {rec : String → DfsState → Option (Except ValidationError DfsState)}
    {x : String} {V : List String}
    (hrecvis : ∀ d st st', rec d st = some (.ok st') → st'.visiting = st.visiting)
    (hrecfuel : ∀ d st, d ∈ ids → st.visiting = V → rec d st ≠ none) :
    ∀ ds st, st.visiting = V → processDeps ids rec x ds st ≠ none := by
  intro ds
  induction ds with
  | nil =>
    intro st _ h
    simp only [processDeps] at h
    cases h
  | cons d ds ih =>
    intro st hv h
    simp only [processDeps] at h
    by_cases hc : ids.contains d
    · rw [if_pos hc] at h
      cases hr : rec d st with
      | none => exact hrecfuel d st (by simpa using hc) hv hr
      | some r =>
        cases r with
        | error e => rw [hr] at h; dsimp only at h; cases h
        | ok st1 =>
          rw [hr] at h
          dsimp only at h
          exact ih st1 (by rw [hrecvis d st st1 hr, hv]) h
    · rw [if_neg hc] at h
      cases h

theorem dfs_ne_none {ids : List String} {deps : String → List String} :
    ∀ fuel x stack st, x ∈ ids →
      (ids.filter (fun i => !(st.visiting.contains i))).length < fuel →
      dfs ids deps fuel x stack st ≠ none := by
  intro fuel
  induction fuel with
  | zero =>
    intro x stack st _ hlt
    exact absurd hlt (Nat.not_lt_zero _)
  | succ fuel ih =>
    intro x stack st hxid hlt h
    simp only [dfs] at h
    by_cases h1 : st.visiting.contains x
    · rw [if_pos h1] at h
      cases h
    · rw [if_neg h1] at h
      by_cases h2 : st.visited.contains x
      · rw [if_pos h2] at h
        cases h
      · rw [if_neg h2] at h
        have hpd : processDeps ids
            (fun d st' => dfs ids deps fuel d (stack ++ [x]) st') x (deps x)
            { st with visiting := x :: st.visiting } ≠ none := by
          apply pd_ne_none (V := x :: st.visiting)
            (fun d s s' hd => dfs_visiting fuel d (stack ++ [x]) s s' hd)
          · intro d s hd hsv
            apply ih d (stack ++ [x]) s hd
            rw [hsv]
            calc (ids.filter (fun i => !((x :: st.visiting).contains i))).length
                < (ids.filter (fun i => !(st.visiting.contains i))).length :=
                  filter_fresh_decrease hxid h1
              _ ≤ fuel := by omega
          · rfl
        cases hp : processDeps ids
            (fun d st' => dfs ids deps fuel d (stack ++ [x]) st') x (deps x)
            { st with visiting := x :: st.visiting } with
        | none => exact hpd hp
        | some r =>
          rw [hp] at h
          cases r with
          | ok st2 => dsimp only at h; cases h
          | error e => dsimp only at h; cases h

theorem go_ok_post {ids : List String} {deps : String → List String} :
    ∀ pending st st', detectCyclesGo ids deps pending st = some (.ok st') →
      DfsInv deps st →
      DfsInv deps st' ∧ (∀ j ∈ st.visited, j ∈ st'.visited) ∧
        ∀ i ∈ pending, i ∈ st'.visited := by
  intro pending
  induction pending with
  | nil =>
    intro st st' h hinv
    simp only [detectCyclesGo] at h
    injection h with h1
    injection h1 with h2
    subst h2
    exact ⟨hinv, fun j hj => hj, by simp⟩
  | cons i is ih =>
    intro st st' h hinv
    simp only [detectCyclesGo] at h
    cases hd : dfs ids deps (ids.length + 1) i [] st with
    | none => rw [hd] at h; cases h
    | some r =>
      cases r with
      | error e => rw [hd] at h; dsimp only at h; cases h
      | ok st1 =>
        rw [hd] at h
        dsimp only at h
        rcases dfs_ok_post (ids.length + 1) i [] st st1 hd hinv with ⟨hinv1, hmono1, hi1⟩
        rcases ih st1 st' h hinv1 with ⟨hinv', hmono', hall⟩
        refine ⟨hinv', fun j hj => hmono' j (hmono1 j hj), ?_⟩
        intro j hj
        rcases List.mem_cons.mp hj with rfl | hj
        · exact hmono' j hi1
        · exact hall j hj

theorem go_ne_none {ids : List String} {deps : String → List String} :
    ∀ pending st, (∀ i ∈ pending, i ∈ ids) → st.visiting = [] →
      detectCyclesGo ids deps pending st ≠ none := by
  intro pending
  induction pending with
  | nil =>
    intro st _ _ h
    simp only [detectCyclesGo] at h
    cases h
  | cons i is ih =>
    intro st hids hvis h
    simp only [detectCyclesGo] at h
    cases hd : dfs ids deps (ids.length + 1) i [] st with
    | none =>
      refine absurd hd (dfs_ne_none (ids.length + 1) i [] st (hids i (by simp)) ?_)
      rw [hvis]
      have hfe : ids.filter (fun i => !(([] : List String).contains i)) = ids :=
        List.filter_eq_self.mpr (fun a _ => rfl)
      rw [hfe]
      omega
    | some r =>
      cases r with
      | error e =>
        rw [hd] at h
        dsimp only at h
        cases h
      | ok st1 =>
        rw [hd] at h
        dsimp only at h
        exact ih st1 (fun j hj => hids j (List.mem_cons_of_mem _ hj))
          (by rw [dfs_visiting _ i [] st st1 hd, hvis]) h

theorem go_cycle_sound {ids : List String} {deps : String → List String} :
    ∀ pending st p, st.visiting = [] →
      detectCyclesGo ids deps pending st = some (.error (.cycle p)) →
      ∃ a t, p = a :: (t ++ [a]) ∧
        List.Chain (fun u v => v ∈ deps u) a (t ++ [a]) := by
  intro pending
  induction pending with
  | nil =>
    intro st p _ h
    simp only [detectCyclesGo] at h
    cases h
  | cons i is ih =>
    intro st p hvis h
    simp only [detectCyclesGo] at h
    cases hd : dfs ids deps (ids.length + 1) i [] st with
    | none => rw [hd] at h; cases h
    | some r =>
      cases r with
      | ok st1 =>
        rw [hd] at h
        dsimp only at h
        exact ih st1 p (by rw [dfs_visiting _ i [] st st1 hd, hvis]) h
      | error e =>
        rw [hd] at h
        dsimp only at h
        injection h with h'
        injection h' with h''
        subst h''
        exact dfs_cycle_sound (ids.length + 1) i [] st p (by rw [hvis]; rfl)
          (by simp) hd

theorem depClosed_index_lt {deps : String → List String} :
    ∀ (l : List String), l.Nodup → DepClosed deps l →
      ∀ v ∈ l, ∀ d ∈ deps v, d ∈ l ∧ l.indexOf v < l.indexOf d := by
  intro l
  induction l with
  | nil =>
    intro _ _ v hv
    cases hv
  | cons a rest ih =>
    intro hnd hdc v hv d hd
    rcases List.nodup_cons.mp hnd with ⟨hna, hndr⟩
    have hdc' : (∀ d ∈ deps a, d ∈ rest) ∧ DepClosed deps rest := hdc
    rcases hdc' with ⟨hda, hdcr⟩
    rcases List.mem_cons.mp hv with rfl | hvr
    · have hdr : d ∈ rest := hda d hd
      have hdne : d ≠ v := fun h => hna (h ▸ hdr)
      refine ⟨List.mem_cons_of_mem _ hdr, ?_⟩
      rw [List.indexOf_cons_self, List.indexOf_cons_ne _ (Ne.symm hdne)]
      omega
    · rcases ih hndr hdcr v hvr d hd with ⟨hdl, hlt⟩
      have hvne : v ≠ a := fun h => hna (h ▸ hvr)
      have hdne : d ≠ a := fun h => hna (h ▸ hdl)
      refine ⟨List.mem_cons_of_mem _ hdl, ?_⟩
      rw [List.indexOf_cons_ne _ (Ne.symm hvne), List.indexOf_cons_ne _ (Ne.symm hdne)]
      omega

theorem walk_index_increase {deps : String → List String} {l : List String}
    (hnd : l.Nodup) (hdc : DepClosed deps l) :
    ∀ (w : List String) (a z : String), a ∈ l →
      List.Chain (fun u v => v ∈ deps u) a w → w.getLast? = some z →
      z ∈ l ∧ l.indexOf a < l.indexOf z := by
  intro w
  induction w with
  | nil =>
    intro a z _ _ hz
    cases hz
  | cons b t ih =>
    intro a z ha hch hz
    rcases List.chain_cons.mp hch with ⟨hab, hbt⟩
    have hb := depClosed_index_lt l hnd hdc a ha b hab
    cases t with
    | nil =>
      have hzb : z = b := by
        simp only [List.getLast?_singleton] at hz
        injection hz with h'
        exact h'.symm
      subst hzb
      exact hb
    | cons c t' =>
      have hz' : (c :: t').getLast? = some z := by
        rw [List.getLast?_cons_cons] at hz
        exact hz
      rcases ih b z hb.1 hbt hz' with ⟨hzl, hlt2⟩
      exact ⟨hzl, lt_trans hb.2 hlt2⟩

theorem no_closed_walk {deps : String → List String} {l : List String}
    (hnd : l.Nodup) (hdc : DepClosed deps l) (a : String) (t : List String)
    (ha : a ∈ l)
    (hch : List.Chain (fun u v => v ∈ deps u) a (t ++ [a])) : False := by
  rcases walk_index_increase hnd hdc (t ++ [a]) a a ha hch (List.getLast?_concat _)
    with ⟨_, hlt⟩
  exact lt_irrefl _ hlt

/-- C8: on any catalog whose dependency graph contains a cycle (of length at
least two, given as a closed edge walk over catalog ids), `detectCycles`
reports a failure and never reports success; moreover any cycle path it ever
reports starts and ends at the same id and follows dependency edges step by
step. -/
theorem C8_cycle_detection (ids : List String) (deps : String → List String)
    (a : String) (t : List String)
    (hmem : ∀ i ∈ a :: (t ++ [a]), i ∈ ids)
    (hch : List.Chain (fun u v => v ∈ deps u) a (t ++ [a])) :
    (∃ e, detectCycles ids deps = some (Except.error e)) ∧
    (∀ p, detectCycles ids deps = some (Except.error (ValidationError.cycle p)) →
      ∃ b u, p = b :: (u ++ [b]) ∧
        List.Chain (fun v w => w ∈ deps v) b (u ++ [b])) := by
  constructor
  · have ha : a ∈ ids := hmem a (by simp)
    have hnn : detectCycles ids deps ≠ none :=
      go_ne_none ids ⟨[], []⟩ (fun i hi => hi) rfl
    have hnok : ∀ st', detectCycles ids deps ≠ some (.ok st') := by
      intro st' hok
      have hinv0 : DfsInv deps (⟨[], []⟩ : DfsState) :=
        ⟨List.nodup_nil, trivial, fun i hi => absurd hi (List.not_mem_nil i)⟩
      rcases go_ok_post ids ⟨[], []⟩ st' hok hinv0 with ⟨⟨hnd, hdc, _⟩, _, hall⟩
      exact no_closed_walk hnd hdc a t (hall a ha) hch
    cases hdet : detectCycles ids deps with
    | none => exact absurd hdet hnn
    | some r =>
      cases r with
      | ok st' => exact absurd hdet (hnok st')
      | error e => exact ⟨e, rfl⟩
  · intro p hp
    exact go_cycle_sound ids ⟨[], []⟩ p rfl hp

/-- Witness for C8: the two-node catalog `a → b → a` yields a reported
structural error, and every reported cycle path is a closed dependency
walk. -/
theorem C8_cycle_detection_witness :
    (∃ e, detectCycles ["a", "b"]
        (fun i => if i = "a" then ["b"] else if i = "b" then ["a"] else []) =
      some (Except.error e)) ∧
    (∀ p, detectCycles ["a", "b"]
        (fun i => if i = "a" then ["b"] else if i = "b" then ["a"] else []) =
        some (Except.error (ValidationError.cycle p)) →
      ∃ b u, p = b :: (u ++ [b]) ∧
        List.Chain
          (fun v w => w ∈
            (fun i => if i = "a" then ["b"] else if i = "b" then ["a"] else []) v)
          b (u ++ [b])) :=
  C8_cycle_detection ["a", "b"]
    (fun i => if i = "a" then ["b"] else if i = "b" then ["a"] else [])
    "a" ["b"] (by decide)
    (List.Chain.cons (by decide) (List.Chain.cons (by decide) List.Chain.nil))

/-! ## Spacing warnings -/

theorem treeTooClose_iff (a b : ℝ × ℝ) :
    treeTooClose a b ↔ (a.1 - b.1) ^ 2 + (a.2 - b.2) ^ 2 < 64 := by
  unfold treeTooClose
  rw [Real.sqrt_lt' (by norm_num : (0:ℝ) < 8)]
  constructor <;> intro h <;> nlinarith [h]

theorem spiralTooClose_iff (a b : ℝ × ℝ) :
    spiralTooClose a b ↔
      (a.2 * Real.cos a.1 - b.2 * Real.cos b.1) ^ 2 +
        (a.2 * Real.sin a.1 - b.2 * Real.sin b.1) ^ 2 < 144 := by
  unfold spiralTooClose
  rw [Real.sqrt_lt' (by norm_num : (0:ℝ) < 12)]
  constructor <;> intro h <;> nlinarith [h]

/-- C9: each unordered pair (taken once, `i < j`) of tree positions is
flagged exactly when the squared Euclidean distance is below `8²`, each pair
of spiral positions exactly when the squared distance of the cartesian
images `x = r·cos θ`, `y = r·sin θ` is below `12²`; in particular tree
nodes at `(0,0)` and `(5,0)` warn while `(0,0)` and `(10,0)` do not. -/
theorem C9_spacing_warnings :
    (∀ (pts : List (ℝ × ℝ)) (i j : Nat), i < j → j < pts.length →
      (treeWarningAt pts i j ↔
        ((pts.getD i (0, 0)).1 - (pts.getD j (0, 0)).1) ^ 2 +
          ((pts.getD i (0, 0)).2 - (pts.getD j (0, 0)).2) ^ 2 < 64)) ∧
    (∀ (pts : List (ℝ × ℝ)) (i j : Nat), i < j → j < pts.length →
      (spiralWarningAt pts i j ↔
        ((pts.getD i (0, 0)).2 * Real.cos (pts.getD i (0, 0)).1 -
            (pts.getD j (0, 0)).2 * Real.cos (pts.getD j (0, 0)).1) ^ 2 +
          ((pts.getD i (0, 0)).2 * Real.sin (pts.getD i (0, 0)).1 -
            (pts.getD j (0, 0)).2 * Real.sin (pts.getD j (0, 0)).1) ^ 2 < 144)) ∧
    treeWarningAt [((0 : ℝ), (0 : ℝ)), (5, 0)] 0 1 ∧
    ¬ treeWarningAt [((0 : ℝ), (0 : ℝ)), (10, 0)] 0 1 := by
  refine ⟨?_, ?_, ?_, ?_⟩
  · intro pts i j hij hj
    unfold treeWarningAt
    rw [treeTooClose_iff]
    constructor
    · rintro ⟨-, -, h⟩
      exact h
    · intro h
      exact ⟨hij, hj, h⟩
  · intro pts i j hij hj
    unfold spiralWarningAt
    rw [spiralTooClose_iff]
    constructor
    · rintro ⟨-, -, h⟩
      exact h
    · intro h
      exact ⟨hij, hj, h⟩
  · refine ⟨by norm_num, by norm_num, ?_⟩
    rw [treeTooClose_iff]
    norm_num
  · rintro ⟨-, -, hc⟩
    rw [treeTooClose_iff] at hc
    norm_num at hc

/-- Witness for C9: the characterisation applied to the concrete pair
`(0,0)`, `(5,0)` — the tree warning holds exactly when `25 < 64`. -/
theorem C9_spacing_warnings_witness :
    treeWarningAt [((0 : ℝ), (0 : ℝ)), (5, 0)] 0 1 ↔
      ((([((0 : ℝ), (0 : ℝ)), (5, 0)].getD 0 (0, 0)).1 -
          ([((0 : ℝ), (0 : ℝ)), (5, 0)].getD 1 (0, 0)).1) ^ 2 +
        (([((0 : ℝ), (0 : ℝ)), (5, 0)].getD 0 (0, 0)).2 -
          ([((0 : ℝ), (0 : ℝ)), (5, 0)].getD 1 (0, 0)).2) ^ 2 < 64) :=
  C9_spacing_warnings.1 [((0 : ℝ), (0 : ℝ)), (5, 0)] 0 1 (by norm_num) (by norm_num)
